import Mathlib

/-!
Verification of the fuse-bead-studio editing/state engine.

The definitions below are a shallow embedding of the TypeScript source:

* `src/hooks/useEditor.ts` — stroke & history engine and the persistence
  synchronizer (React `useState`/`useRef` state is modelled as an explicit
  `EditorState` record threaded through the operations; the browser
  `localStorage` collaborator is modelled as an explicit `StoreState`).
* `src/utils/storage.ts` — base64 grid encoding (the platform `btoa`/`atob`
  pair is modelled by `btoaList`/`atobList` on char lists) and the design
  gallery store.
* `src/utils/structure.ts` — the structural-stability analyzer
  (`findUnstableBeads`), including its BFS connected-component pass.

JavaScript `number` values that the program only ever uses as integers are
modelled as `Int` (cell values) or `Nat` (indices, dimensions, timestamps).
-/

/-! ## Data model (src/types.ts) -/

/-- The tool palette: `'paint' | 'erase' | 'move'`. -/
inductive Tool
  | paint
  | erase
  | move
deriving DecidableEq, Repr

/-- A recorded prev→next change to a single cell (`CellPatch` in types.ts). -/
structure CellPatch where
  i : Nat
  prev : Int
  next : Int
deriving DecidableEq, Repr

/-- `ActionType = 'stroke' | 'tap' | 'clear'`. -/
inductive ActionType
  | stroke
  | tap
  | clear
deriving DecidableEq, Repr

/-- A coalesced reversible action (`HistoryAction` in types.ts). -/
structure HistoryAction where
  kind : ActionType
  patches : List CellPatch
deriving DecidableEq, Repr

/-- A persisted design record (`Design` in types.ts).  Timestamps are ISO
strings in the source, always compared through `new Date(s).getTime()`; they
are modelled directly by that numeric time value.  The base64 string
`gridB64` is modelled as a list of characters. -/
structure Design where
  id : String
  name : String
  width : Nat
  height : Nat
  paletteVersion : String
  gridB64 : List Char
  createdAt : Nat
  updatedAt : Nat
deriving DecidableEq, Repr

/-- A gallery index summary entry (`DesignIndexEntry` in types.ts). -/
structure DesignIndexEntry where
  id : String
  width : Nat
  height : Nat
  updatedAt : Nat
deriving DecidableEq, Repr

/-- The state held by the `useEditor` hook: React `useState`/`useRef` cells
made explicit.  `strokeBuf` models `currentStrokeRef` (a JS `Map` from cell
index to patch, which preserves insertion order — modelled as the ordered
list of its values, each of which carries its key in the `i` field).
`isDirty` models `isDirtyRef.current`. -/
structure EditorState where
  boardWidth : Nat
  boardHeight : Nat
  cells : List Int
  past : List HistoryAction
  future : List HistoryAction
  activeTool : Tool
  activeColorId : Int
  isDrawing : Bool
  strokeBuf : List CellPatch
  currentDesignId : Option String
  designName : String
  isSaved : Bool
  isDirty : Bool
deriving DecidableEq, Repr

/-- The durable key-value collaborator (browser `localStorage`) as seen
through the `storage.ts` keys: the parsed design index (key
`fusebeads:designIndex`), the full design records (keys
`fusebeads:design:<id>`), and the current-design pointer
(`fusebeads:currentDesignId`).  `failing` models a store whose writes are
rejected (e.g. quota exceeded): any `setItem` throws. -/
structure StoreState where
  index : List DesignIndexEntry
  records : List (String × Design)
  currentId : Option String
  failing : Bool
deriving DecidableEq, Repr

/-! ## Stroke & history engine (src/hooks/useEditor.ts) -/

/-- Membership test of `currentStrokeRef.current.has(index)`. -/
def strokeHas (buf : List CellPatch) (index : Nat) : Bool :=
  buf.any (fun p => p.i == index)

/-- The cell-array update performed by `applyPatches` for one direction:
`newCells[patch.i] = direction === 'forward' ? patch.next : patch.prev`,
folded over the patch list in order. -/
def applyPatchesTo (cells : List Int) (patches : List CellPatch) (forward : Bool) : List Int :=
  patches.foldl (fun cs p => cs.set p.i (if forward then p.next else p.prev)) cells

/-- `applyPatches` from useEditor.ts (updates the grid only). -/
def applyPatches (st : EditorState) (patches : List CellPatch) (forward : Bool) : EditorState :=
  { st with cells := applyPatchesTo st.cells patches forward }

/-- `pushActionToHistory`: appends to `past` and always empties `future`. -/
def pushActionToHistory (st : EditorState) (action : HistoryAction) : EditorState :=
  { st with past := st.past ++ [action], future := [] }

/-- `undo`: no-op on empty `past`; otherwise pops the last past action,
applies its patches backward, and prepends it to `future`. -/
def undo (st : EditorState) : EditorState :=
  match st.past.getLast? with
  | none => st
  | some lastAction =>
      let st1 := applyPatches st lastAction.patches false
      { st1 with past := st.past.dropLast, future := lastAction :: st.future }

/-- `redo`: no-op on empty `future`; otherwise pops the first future action,
applies its patches forward, and appends it to `past`. -/
def redo (st : EditorState) : EditorState :=
  match st.future with
  | [] => st
  | nextAction :: newFuture =>
      let st1 := applyPatches st nextAction.patches true
      { st1 with past := st.past ++ [nextAction], future := newFuture }

/-- The target cell value a stroke writes:
`activeTool === 'paint' ? activeColorId : 0`. -/
def strokeTarget (st : EditorState) : Int :=
  if st.activeTool = Tool.paint then st.activeColorId else 0

/-- `startStroke(index)` from useEditor.ts.  The source first rejects
out-of-bounds indices (`index < 0 || index >= cells.length`; the negative
case cannot arise for a `Nat` index), then sets `isDrawing`, clears the
stroke buffer, and writes the cell iff its value differs from the target,
recording the patch. -/
def startStroke (st : EditorState) (index : Nat) : EditorState :=
  if index ≥ st.cells.length then st
  else
    let st1 := { st with isDrawing := true, strokeBuf := [] }
    let targetValue := strokeTarget st1
    let currentValue := st1.cells.getD index 0
    if currentValue ≠ targetValue then
      { st1 with
          strokeBuf := st1.strokeBuf ++ [⟨index, currentValue, targetValue⟩],
          cells := st1.cells.set index targetValue }
    else st1

/-- `continueStroke(index)` from useEditor.ts: no-op unless a stroke is in
progress and the index is in bounds; a cell already present in the stroke
buffer is ignored (first-write-wins); otherwise the same write rule as
`startStroke`. -/
def continueStroke (st : EditorState) (index : Nat) : EditorState :=
  if ¬ st.isDrawing then st
  else if index ≥ st.cells.length then st
  else
    let targetValue := strokeTarget st
    if strokeHas st.strokeBuf index then st
    else
      let currentValue := st.cells.getD index 0
      if currentValue ≠ targetValue then
        { st with
            strokeBuf := st.strokeBuf ++ [⟨index, currentValue, targetValue⟩],
            cells := st.cells.set index targetValue }
      else st

/-- `endStroke()` from useEditor.ts: no-op if no stroke is in progress;
otherwise pushes one `HistoryAction{kind: 'stroke'}` holding the buffered
patches in insertion order iff the buffer is nonempty, and always clears the
buffer. -/
def endStroke (st : EditorState) : EditorState :=
  if ¬ st.isDrawing then st
  else
    let st1 := { st with isDrawing := false }
    let st2 :=
      if st1.strokeBuf.length > 0 then
        pushActionToHistory st1 ⟨ActionType.stroke, st1.strokeBuf⟩
      else st1
    { st2 with strokeBuf := [] }

/-- A completed gesture: `startStroke i`, a sequence of `continueStroke`,
then nothing yet (the caller applies `endStroke` separately). -/
def runStroke (st : EditorState) (i : Nat) (is_ : List Nat) : EditorState :=
  is_.foldl continueStroke (startStroke st i)

/-- Replaces the active tool (helper for relating behaviours of two tools). -/
def withTool (st : EditorState) (t : Tool) : EditorState :=
  { st with activeTool := t }

/-! ## Grid serialization (src/utils/storage.ts, plus the platform
`btoa`/`atob` pair it calls) -/

/-- The base64 alphabet used by `btoa`/`atob`. -/
def b64Alphabet : List Char :=
  ("ABCDEFGHIJKLMNOPQRSTUVWXYZabcdefghijklmnopqrstuvwxyz0123456789+/").toList

/-- The base64 digit character for a 6-bit value. -/
def b64Char (n : Nat) : Char :=
  b64Alphabet.getD n 'A'

/-- Decode one base64 digit character; `none` for characters outside the
alphabet (on which the platform `atob` throws). -/
def b64Index (c : Char) : Option Nat :=
  let k := b64Alphabet.indexOf c
  if k < 64 then some k else none

/-- One full 3-byte group of `btoa`: bytes `a b c` become four 6-bit
digits `a>>2`, `((a&3)<<4)|(b>>4)`, `((b&15)<<2)|(c>>6)`, `c&63`. -/
def btoaGroup (a b c : Nat) : List Char :=
  [b64Char (a / 4), b64Char (a % 4 * 16 + b / 16),
   b64Char (b % 16 * 4 + c / 64), b64Char (c % 64)]

/-- The platform `btoa` on a byte sequence (the "binary string" built by
`encodeGrid` has exactly these character codes): standard base64 with `'='`
padding. -/
def btoaList : List Nat → List Char
  | [] => []
  | [a] => [b64Char (a / 4), b64Char (a % 4 * 16), '=', '=']
  | [a, b] => [b64Char (a / 4), b64Char (a % 4 * 16 + b / 16), b64Char (b % 16 * 4), '=']
  | a :: b :: c :: rest => btoaGroup a b c ++ btoaList rest

/-- The platform `atob`: decodes groups of four base64 digits to three
bytes, accepting `'='` padding only at the very end; `none` models the
`InvalidCharacterError` the platform throws on malformed input. -/
def atobList : List Char → Option (List Nat)
  | [] => some []
  | c0 :: c1 :: c2 :: c3 :: rest =>
      if c2 = '=' ∧ c3 = '=' ∧ rest = [] then do
        let s0 ← b64Index c0
        let s1 ← b64Index c1
        pure [s0 * 4 + s1 / 16]
      else if c3 = '=' ∧ rest = [] then do
        let s0 ← b64Index c0
        let s1 ← b64Index c1
        let s2 ← b64Index c2
        pure [s0 * 4 + s1 / 16, s1 % 16 * 16 + s2 / 4]
      else do
        let s0 ← b64Index c0
        let s1 ← b64Index c1
        let s2 ← b64Index c2
        let s3 ← b64Index c3
        let tail ← atobList rest
        pure ([s0 * 4 + s1 / 16, s1 % 16 * 16 + s2 / 4, s2 % 4 * 64 + s3] ++ tail)
  | _ => none

/-- JavaScript `ToUint8` coercion applied by `new Uint8Array(cells)` to an
integer value: reduction modulo 256 (`Int.emod` is nonnegative here, like
the JS wrap-around). -/
def toByte (v : Int) : Nat :=
  (v % 256).toNat

/-- `encodeGrid` from storage.ts: coerce each cell into a byte via
`Uint8Array`, build the binary string of those char codes (the source builds
it by concatenating `String.fromCharCode` over 0x8000-byte chunks, which
yields exactly the codes of all bytes in order), and apply `btoa`. -/
def encodeGrid (cells : List Int) : List Char :=
  btoaList (cells.map toByte)

/-- `decodeGrid` from storage.ts: `atob`, then read the code of every
character into a `Uint8Array` (the codes are already bytes) and return the
resulting number array; a decode failure is caught and yields `[]`. -/
def decodeGrid (s : List Char) : List Int :=
  match atobList s with
  | some bytes => bytes.map (fun b => Int.ofNat b)
  | none => []

/-! ## Design gallery store (src/utils/storage.ts) -/

/-- The gallery cap (`MAX_DESIGNS` in storage.ts). -/
def MAX_DESIGNS : Nat := 30

/-- `localStorage.setItem` on the record key of a design id: replace the
value stored under that key. -/
def setRecord (id : String) (d : Design) (recs : List (String × Design)) :
    List (String × Design) :=
  (id, d) :: recs.filter (fun r => r.1 != id)

/-- `localStorage.removeItem` on the record key of a design id. -/
def removeRecord (id : String) (recs : List (String × Design)) :
    List (String × Design) :=
  recs.filter (fun r => r.1 != id)

/-- `loadDesign` from storage.ts: `getItem` + JSON parse of the record under
the design key (`null`, i.e. `none`, when absent). -/
def loadDesign (id : String) (s : StoreState) : Option Design :=
  (s.records.find? (fun r => r.1 == id)).map (fun r => r.2)

/-- The index upsert inside `saveDesign`: `findIndex` by id, then in-place
replacement of that entry, or `push` of a new one. -/
def upsertEntry (index : List DesignIndexEntry) (entry : DesignIndexEntry) :
    List DesignIndexEntry :=
  match index.findIdx? (fun e => e.id == entry.id) with
  | some k => index.set k entry
  | none => index ++ [entry]

/-- The sort order of the comparator
`(a, b) => new Date(b.updatedAt).getTime() - new Date(a.updatedAt).getTime()`:
`updatedAt` descending. -/
def byUpdatedDesc (a b : DesignIndexEntry) : Bool :=
  decide (b.updatedAt ≤ a.updatedAt)

/-- `saveDesign` from storage.ts.  On a failing store the `setItem` of the
record throws; the surrounding `catch` rethrows
`Error("Storage full or unavailable")`, modelled as `Except.error`.
Otherwise: write the full record, upsert the index entry, sort the index by
`updatedAt` descending (JS `sort` is stable, modelled by `mergeSort`),
remove the records of all entries beyond `MAX_DESIGNS`, and store the index
truncated to `MAX_DESIGNS`. -/
def saveDesign (d : Design) (s : StoreState) : Except String StoreState :=
  if s.failing then Except.error ("Storage full or unavailable")
  else
    let recs1 := setRecord d.id d s.records
    let entry : DesignIndexEntry := ⟨d.id, d.width, d.height, d.updatedAt⟩
    let sorted := (upsertEntry s.index entry).mergeSort byUpdatedDesc
    let overflow := sorted.drop MAX_DESIGNS
    let recs2 := overflow.foldl (fun r e => removeRecord e.id r) recs1
    Except.ok { s with index := sorted.take MAX_DESIGNS, records := recs2 }

/-- `storage.setCurrentDesignId`: a bare `localStorage.setItem` (or
`removeItem` for `null`).  A rejected `setItem` throws the platform quota
error, uncaught in storage.ts. -/
def setCurrentDesignIdOp (idOpt : Option String) (s : StoreState) :
    Except String StoreState :=
  match idOpt with
  | some id =>
      if s.failing then Except.error ("QuotaExceededError")
      else Except.ok { s with currentId := some id }
  | none => Except.ok { s with currentId := none }

/-! ## Persistence synchronizer (src/hooks/useEditor.ts) -/

/-- `BoardSize` from types.ts. -/
structure BoardSize where
  label : String
  width : Nat
  height : Nat
deriving DecidableEq, Repr

/-- `BOARD_SIZES` from constants.ts. -/
def BOARD_SIZES : List BoardSize :=
  [⟨"Small (15x15)", 15, 15⟩, ⟨"Medium (29x29)", 29, 29⟩, ⟨"Large (45x45)", 45, 45⟩]

/-- Outcome of a persistence operation as seen by its JS caller: either a
normal return value, or an exception that escaped the function uncaught. -/
inductive SaveOutcome
  | ok (id : String)
  | threw (msg : String)
deriving DecidableEq, Repr

/-- Result of running `saveCurrentDesign`: the outcome at the caller, plus
the editor state and store contents after the call (whether it returned or
threw). -/
structure SaveResult where
  outcome : SaveOutcome
  editor : EditorState
  store : StoreState
deriving DecidableEq, Repr

/-- The tail of `saveCurrentDesign` once `idToUse`/`createdAt` are known:
optionally set the design name, build the record, `storage.saveDesign` it
(whose exception is not caught here), and only on success mark the state
clean (`setIsSaved(true)`, `isDirtyRef.current = false`). -/
def finishSave (st : EditorState) (s : StoreState) (idToUse : String)
    (createdAt now : Nat) (nameOverride : Option String) : SaveResult :=
  let nameToUse := nameOverride.getD st.designName
  let st1 :=
    match nameOverride with
    | some n => { st with designName := n }
    | none => st
  let design : Design :=
    { id := idToUse, name := nameToUse, width := st1.boardWidth,
      height := st1.boardHeight, paletteVersion := "v1",
      gridB64 := encodeGrid st1.cells, createdAt := createdAt, updatedAt := now }
  match saveDesign design s with
  | Except.error e => ⟨SaveOutcome.threw e, st1, s⟩
  | Except.ok s1 =>
      ⟨SaveOutcome.ok idToUse, { st1 with isSaved := true, isDirty := false }, s1⟩

/-- `saveCurrentDesign` from useEditor.ts (lines 64-102).  `now` stands for
`new Date().toISOString()` and `freshId` for `storage.generateId()`.  A
draft without an id first assigns and persists a fresh id; an existing id
looks up the stored record to preserve `createdAt`.  Exceptions from the
storage layer propagate to the caller (`SaveOutcome.threw`). -/
def saveCurrentDesign (st : EditorState) (s : StoreState) (now : Nat)
    (freshId : String) (nameOverride : Option String) : SaveResult :=
  match st.currentDesignId with
  | none =>
      let idToUse := freshId
      let st1 := { st with currentDesignId := some idToUse }
      match setCurrentDesignIdOp (some idToUse) s with
      | Except.error e => ⟨SaveOutcome.threw e, st1, s⟩
      | Except.ok s1 => finishSave st1 s1 idToUse now now nameOverride
  | some idToUse =>
      let createdAt :=
        match loadDesign idToUse s with
        | some existing => existing.createdAt
        | none => now
      finishSave st s idToUse createdAt now nameOverride

/-- `loadDesignToState` from useEditor.ts (lines 48-62): decode the grid,
pick the matching board size (or a custom one labelled `"WxH"`), replace the
whole editor state, and persist the current-design pointer.  The source
performs no validation of the record before applying it. -/
def loadDesignToState (design : Design) (st : EditorState) (s : StoreState) :
    EditorState × Except String StoreState :=
  let decodedCells := decodeGrid design.gridB64
  let matchingSize :=
    (BOARD_SIZES.find? (fun z =>
        z.width == design.width && z.height == design.height)).getD
      ⟨toString design.width ++ "x" ++ toString design.height,
       design.width, design.height⟩
  ({ st with
      boardWidth := matchingSize.width,
      boardHeight := matchingSize.height,
      cells := decodedCells,
      past := [], future := [],
      currentDesignId := some design.id,
      designName := design.name,
      isSaved := true, isDirty := false },
   setCurrentDesignIdOp (some design.id) s)

/-! ## Structural analyzer (src/utils/structure.ts)

The `Int32Array(totalCells)` cluster map is modelled as a total function
from cell index to cluster id (0 = empty/unvisited); the algorithm only
reads and writes indices below `width*height`. -/

/-- `orthogonalDirs`: up, down, left, right. -/
def orthogonalDirs : List (Int × Int) := [(0, -1), (0, 1), (-1, 0), (1, 0)]

/-- `diagonalDirs`: NW, NE, SW, SE. -/
def diagonalDirs : List (Int × Int) := [(-1, -1), (1, -1), (-1, 1), (1, 1)]

/-- `isValid(x, y)`: the coordinates lie on the board. -/
def coordsValid (w h : Nat) (x y : Int) : Prop :=
  0 ≤ x ∧ x < (w : Int) ∧ 0 ≤ y ∧ y < (h : Int)

instance (w h : Nat) (x y : Int) : Decidable (coordsValid w h x y) :=
  inferInstanceAs (Decidable (_ ∧ _ ∧ _ ∧ _))

/-- `getIndex(x, y) = y * width + x` (used only on valid coordinates). -/
def nbrIdx (w : Nat) (x y : Int) : Nat :=
  (y * (w : Int) + x).toNat

/-- The neighbour coordinates of cell `i` in direction `d`:
`(i % width + dx, floor(i / width) + dy)`. -/
def nbrCoords (w : Nat) (i : Nat) (d : Int × Int) : Int × Int :=
  (((i % w : Nat) : Int) + d.1, ((i / w : Nat) : Int) + d.2)

/-- Pointwise update `clusterMap[i] = v` of the cluster map. -/
def fset (f : Nat → Nat) (i v : Nat) : Nat → Nat :=
  fun j => if j = i then v else f j

/-- Index produced by valid coordinates is on the board. -/
theorem nbrIdx_lt (w h : Nat) (x y : Int) (hv : coordsValid w h x y) :
    nbrIdx w x y < w * h := by
  obtain ⟨hx0, hxw, hy0, hyh⟩ := hv
  unfold nbrIdx
  have h2 : (y + 1) * (w : Int) ≤ (h : Int) * (w : Int) :=
    mul_le_mul_of_nonneg_right (by omega) (by positivity)
  have hlt : y * (w : Int) + x < ((w * h : Nat) : Int) := by push_cast; nlinarith
  have hz : (0 : Int) ≤ y * (w : Int) + x := by
    have : (0 : Int) ≤ y * (w : Int) := mul_nonneg hy0 (by positivity)
    omega
  omega

/-- Number of unvisited cluster-map entries over the board (the BFS
termination measure, together with the pending queue length). -/
def zeroCount (w h : Nat) (cm : Nat → Nat) : Nat :=
  ((Finset.range (w * h)).filter (fun j => cm j = 0)).card

theorem zeroCount_fset (w h : Nat) (cm : Nat → Nat) (i v : Nat)
    (hi : i < w * h) (hz : cm i = 0) (hv : v ≠ 0) :
    zeroCount w h (fset cm i v) + 1 = zeroCount w h cm := by
  unfold zeroCount
  have hfe : (Finset.range (w * h)).filter (fun j => fset cm i v j = 0) =
      ((Finset.range (w * h)).filter (fun j => cm j = 0)).erase i := by
    ext j
    by_cases hji : j = i
    · subst hji
      simp [fset, hv]
    · simp [fset, hji, Finset.mem_filter, Finset.mem_erase, Finset.mem_range]
  rw [hfe]
  exact Finset.card_erase_add_one (by simp [Finset.mem_filter, Finset.mem_range, hi, hz])

/-- One direction of the BFS neighbour scan: if the neighbour is on the
board, holds a bead, and is unvisited, mark it with the cluster id and
enqueue it. -/
def bfsScan (cells : List Int) (w h clusterId : Nat) (i : Nat)
    (acc : (Nat → Nat) × List Nat) (d : Int × Int) : (Nat → Nat) × List Nat :=
  if coordsValid w h (nbrCoords w i d).1 (nbrCoords w i d).2 then
    if cells.getD (nbrIdx w (nbrCoords w i d).1 (nbrCoords w i d).2) 0 ≠ 0 ∧
        acc.1 (nbrIdx w (nbrCoords w i d).1 (nbrCoords w i d).2) = 0 then
      (fset acc.1 (nbrIdx w (nbrCoords w i d).1 (nbrCoords w i d).2) clusterId,
       acc.2 ++ [nbrIdx w (nbrCoords w i d).1 (nbrCoords w i d).2])
    else acc
  else acc

theorem bfsScan_measure (cells : List Int) (w h cid : Nat) (hcid : 0 < cid)
    (i : Nat) (acc : (Nat → Nat) × List Nat) (d : Int × Int) :
    zeroCount w h (bfsScan cells w h cid i acc d).1 +
      (bfsScan cells w h cid i acc d).2.length ≤
    zeroCount w h acc.1 + acc.2.length := by
  unfold bfsScan
  split
  case isTrue hvalid =>
    split
    case isTrue hcond =>
      have hlt := nbrIdx_lt w h _ _ hvalid
      have hc := zeroCount_fset w h acc.1 _ cid hlt hcond.2 (by omega)
      simp only [List.length_append, List.length_cons, List.length_nil]
      omega
    case isFalse _ => exact le_rfl
  case isFalse _ => exact le_rfl

theorem bfsScan_queue_append (cells : List Int) (w h cid : Nat) (i : Nat)
    (acc : (Nat → Nat) × List Nat) (d : Int × Int) :
    ∃ t, (bfsScan cells w h cid i acc d).2 = acc.2 ++ t := by
  unfold bfsScan
  split
  · split
    · exact ⟨_, rfl⟩
    · exact ⟨[], by simp⟩
  · exact ⟨[], by simp⟩

theorem bfsScan_fold_measure (cells : List Int) (w h cid : Nat)
    (hcid : 0 < cid) (i : Nat) :
    ∀ (ds : List (Int × Int)) (acc : (Nat → Nat) × List Nat),
      zeroCount w h (ds.foldl (bfsScan cells w h cid i) acc).1 +
        (ds.foldl (bfsScan cells w h cid i) acc).2.length ≤
      zeroCount w h acc.1 + acc.2.length := by
  intro ds
  induction ds with
  | nil => intro acc; exact le_rfl
  | cons d ds ih =>
      intro acc
      exact le_trans (ih (bfsScan cells w h cid i acc d))
        (bfsScan_measure cells w h cid hcid i acc d)

theorem bfsScan_fold_append (cells : List Int) (w h cid : Nat) (i : Nat) :
    ∀ (ds : List (Int × Int)) (acc : (Nat → Nat) × List Nat),
      ∃ t, (ds.foldl (bfsScan cells w h cid i) acc).2 = acc.2 ++ t := by
  intro ds
  induction ds with
  | nil => intro acc; exact ⟨[], by simp⟩
  | cons d ds ih =>
      intro acc
      obtain ⟨t0, ht0⟩ := bfsScan_queue_append cells w h cid i acc d
      obtain ⟨t1, ht1⟩ := ih (bfsScan cells w h cid i acc d)
      refine ⟨t0 ++ t1, ?_⟩
      rw [List.foldl_cons, ht1, ht0, List.append_assoc]

/-- The BFS loop of the clustering pass (`while (head < queue.length)`):
dequeue `queue[head]`, scan its four orthogonal neighbours — marking and
enqueueing unvisited beads — then advance `head`.  Cluster ids are handed
out from 1, hence the positivity argument. -/
def bfsLoop (cells : List Int) (w h clusterId : Nat) (hcid : 0 < clusterId)
    (cm : Nat → Nat) (queue : List Nat) (head : Nat) : Nat → Nat :=
  if hq : head < queue.length then
    bfsLoop cells w h clusterId hcid
      (orthogonalDirs.foldl (bfsScan cells w h clusterId (queue.getD head 0)) (cm, queue)).1
      (orthogonalDirs.foldl (bfsScan cells w h clusterId (queue.getD head 0)) (cm, queue)).2
      (head + 1)
  else cm
termination_by zeroCount w h cm + (queue.length - head)
decreasing_by
  have hm := bfsScan_fold_measure cells w h clusterId hcid (queue.getD head 0)
    orthogonalDirs (cm, queue)
  obtain ⟨t, ht⟩ := bfsScan_fold_append cells w h clusterId (queue.getD head 0)
    orthogonalDirs (cm, queue)
  dsimp only at hm ht ⊢
  have hlen : queue.length ≤
      (orthogonalDirs.foldl (bfsScan cells w h clusterId (queue.getD head 0)) (cm, queue)).2.length := by
    rw [ht]
    simp
  omega

/-- The outer clustering pass (`for i` over all cells): seed a BFS at every
bead not yet assigned a cluster, handing out ids from `nextClusterId` up. -/
def clusterFrom (cells : List Int) (w h : Nat) (i : Nat) (cm : Nat → Nat)
    (nextClusterId : Nat) (hid : 0 < nextClusterId) : Nat → Nat :=
  if i < cells.length then
    if cells.getD i 0 ≠ 0 ∧ cm i = 0 then
      let cm1 := bfsLoop cells w h nextClusterId hid (fset cm i nextClusterId) [i] 0
      clusterFrom cells w h (i + 1) cm1 (nextClusterId + 1) (Nat.succ_pos _)
    else clusterFrom cells w h (i + 1) cm nextClusterId hid
  else cm
termination_by cells.length - i
decreasing_by
  all_goals omega

/-- The clustering pass of `findUnstableBeads` (`nextClusterId` starts at 1,
the map starts all-zero). -/
def clusterPass (cells : List Int) (w h : Nat) : Nat → Nat :=
  clusterFrom cells w h 0 (fun _ => 0) 1 Nat.one_pos

/-- Pass 2, Rule A data: the number of on-board orthogonal neighbours of `i`
holding a bead. -/
def orthCount (cells : List Int) (w h : Nat) (i : Nat) : Nat :=
  (orthogonalDirs.filter (fun d =>
     decide (coordsValid w h (nbrCoords w i d).1 (nbrCoords w i d).2) &&
       decide (cells.getD (nbrIdx w (nbrCoords w i d).1 (nbrCoords w i d).2) 0 ≠ 0))).length

/-- Pass 2, Rule B: some on-board diagonal neighbour holds a bead assigned
to a different cluster id. -/
def hasWeakBridge (cells : List Int) (w h : Nat) (cm : Nat → Nat) (i : Nat) : Bool :=
  diagonalDirs.any (fun d =>
    decide (coordsValid w h (nbrCoords w i d).1 (nbrCoords w i d).2) &&
      (decide (cells.getD (nbrIdx w (nbrCoords w i d).1 (nbrCoords w i d).2) 0 ≠ 0) &&
       decide (cm (nbrIdx w (nbrCoords w i d).1 (nbrCoords w i d).2) ≠ cm i)))

/-- Pass 2 for one cell: empty cells are skipped; an isolated bead (Rule A)
is unstable without looking at diagonals; otherwise Rule B decides. -/
def isUnstableCell (cells : List Int) (w h : Nat) (cm : Nat → Nat) (i : Nat) : Bool :=
  decide (cells.getD i 0 ≠ 0) &&
    (if orthCount cells w h i = 0 then true else hasWeakBridge cells w h cm i)

/-- `findUnstableBeads(cells, width, height)`: the set of unstable indices.
The JS `Set<number>`, populated in increasing index order, is modelled as
the increasing list of its elements. -/
def findUnstableBeads (cells : List Int) (w h : Nat) : List Nat :=
  (List.range cells.length).filter
    (fun i => isUnstableCell cells w h (clusterPass cells w h) i)

/-! Specification-side notions for the analyzer: plain 4-adjacency of beads
and its reflexive-transitive closure (membership in one connected
component), with no reference to the traversal. -/

/-- Cell `j` is an on-board 4-neighbour of cell `i`. -/
def orthAdj (w h : Nat) (i j : Nat) : Prop :=
  ∃ d ∈ orthogonalDirs,
    coordsValid w h (nbrCoords w i d).1 (nbrCoords w i d).2 ∧
    j = nbrIdx w (nbrCoords w i d).1 (nbrCoords w i d).2

/-- Cell `j` is an on-board diagonal neighbour of cell `i`. -/
def diagAdj (w h : Nat) (i j : Nat) : Prop :=
  ∃ d ∈ diagonalDirs,
    coordsValid w h (nbrCoords w i d).1 (nbrCoords w i d).2 ∧
    j = nbrIdx w (nbrCoords w i d).1 (nbrCoords w i d).2

/-- A 4-adjacency edge between two beads of the grid. -/
def beadAdj (cells : List Int) (w h : Nat) (i j : Nat) : Prop :=
  i < w * h ∧ j < w * h ∧ cells.getD i 0 ≠ 0 ∧ cells.getD j 0 ≠ 0 ∧
    orthAdj w h i j

/-- `i` and `j` lie in the same 4-adjacency connected component. -/
def sameCluster (cells : List Int) (w h : Nat) (i j : Nat) : Prop :=
  Relation.ReflTransGen (beadAdj cells w h) i j

/-! ## Concrete states used to instantiate the theorems -/

/-- A blank editor state over a `w×h` board (the shape `createNewDesign`
produces). -/
def blankState (w h : Nat) : EditorState :=
  { boardWidth := w, boardHeight := h,
    cells := List.replicate (w * h) 0,
    past := [], future := [],
    activeTool := Tool.paint, activeColorId := 1,
    isDrawing := false, strokeBuf := [],
    currentDesignId := none, designName := "My Design",
    isSaved := true, isDirty := false }

/-- A 2×2 board holding one bead, with the move tool selected. -/
def moveState : EditorState :=
  { blankState 2 2 with activeTool := Tool.move, cells := [5, 0, 0, 0] }

/-- A persisted record whose encoded grid decodes to 3 cells although it
declares a 2×2 board (3 ≠ 4): a corrupt design. -/
def corruptDesign : Design :=
  { id := "bad", name := "X", width := 2, height := 2, paletteVersion := "v1",
    gridB64 := encodeGrid [1, 2, 3], createdAt := 0, updatedAt := 0 }

/-- An empty, healthy store. -/
def emptyStore : StoreState :=
  { index := [], records := [], currentId := none, failing := false }

/-- A store whose writes are rejected (quota exceeded). -/
def failingStore : StoreState :=
  { index := [], records := [], currentId := some "d1", failing := true }

/-- An editor holding unsaved changes to an existing design `d1`. -/
def dirtyState : EditorState :=
  { blankState 1 1 with
    cells := [4], currentDesignId := some "d1",
    isSaved := false, isDirty := true }

/-- A sample design record for exercising `saveDesign`. -/
def sampleDesign : Design :=
  { id := "d1", name := "Sample", width := 2, height := 2,
    paletteVersion := "v1", gridB64 := encodeGrid [1, 0, 0, 2],
    createdAt := 3, updatedAt := 7 }

/-! ## Base64 round-trip -/

theorem b64Index_b64Char : ∀ k : Nat, k < 64 → b64Index (b64Char k) = some k := by
  decide

theorem b64Char_ne_pad : ∀ k : Nat, k < 64 → b64Char k ≠ '=' := by
  decide

theorem toByte_lt (v : Int) : toByte v < 256 := by
  unfold toByte
  have h1 : 0 ≤ v % 256 := Int.emod_nonneg v (by norm_num)
  have h2 : v % 256 < 256 := Int.emod_lt_of_pos v (by norm_num)
  omega

theorem intCast_toByte (v : Int) : ((toByte v : Nat) : Int) = v % 256 := by
  unfold toByte
  have h1 : 0 ≤ v % 256 := Int.emod_nonneg v (by norm_num)
  omega

theorem atobList_btoaList : ∀ bs : List Nat, (∀ b ∈ bs, b < 256) →
    atobList (btoaList bs) = some bs := by
  intro bs
  induction bs using btoaList.induct with
  | case1 =>
      intro _
      rfl
  | case2 a =>
      intro hb
      have ha : a < 256 := hb a (by simp)
      have h0 := b64Index_b64Char (a / 4) (by omega)
      have h1 := b64Index_b64Char (a % 4 * 16) (by omega)
      simp [btoaList, atobList, h0, h1]
      omega
  | case3 a b =>
      intro hb
      have ha : a < 256 := hb a (by simp)
      have hbb : b < 256 := hb b (by simp)
      have h0 := b64Index_b64Char (a / 4) (by omega)
      have h1 := b64Index_b64Char (a % 4 * 16 + b / 16) (by omega)
      have h2 := b64Index_b64Char (b % 16 * 4) (by omega)
      have hne2 := b64Char_ne_pad (b % 16 * 4) (by omega)
      simp [btoaList, atobList, h0, h1, h2, hne2]
      omega
  | case4 a b c rest ih =>
      intro hb
      have ha : a < 256 := hb a (by simp)
      have hbb : b < 256 := hb b (by simp)
      have hc : c < 256 := hb c (by simp)
      have h0 := b64Index_b64Char (a / 4) (by omega)
      have h1 := b64Index_b64Char (a % 4 * 16 + b / 16) (by omega)
      have h2 := b64Index_b64Char (b % 16 * 4 + c / 64) (by omega)
      have h3 := b64Index_b64Char (c % 64) (by omega)
      have hne2 := b64Char_ne_pad (b % 16 * 4 + c / 64) (by omega)
      have hne3 := b64Char_ne_pad (c % 64) (by omega)
      have ihr := ih (fun x hx => hb x (by simp [hx]))
      simp [btoaList, btoaGroup, atobList, h0, h1, h2, h3, hne2, hne3, ihr]
      omega

/-- The encode/decode pair composes to per-value reduction modulo 256 (the
`Uint8Array` coercion); on byte-valued grids this is the identity. -/
theorem decode_encode_emod (cells : List Int) :
    decodeGrid (encodeGrid cells) = cells.map (fun v => v % 256) := by
  have hat := atobList_btoaList (cells.map toByte)
    (fun b hb => by
      obtain ⟨v, _, rfl⟩ := List.mem_map.mp hb
      exact toByte_lt v)
  unfold decodeGrid encodeGrid
  rw [hat]
  show List.map (fun b => Int.ofNat b) (List.map toByte cells) = _
  rw [List.map_map]
  refine List.map_congr_left fun v _ => ?_
  simp only [Function.comp_apply]
  exact intCast_toByte v

/-! ## Gallery store lemmas -/

theorem byUpdatedDesc_trans : ∀ a b c : DesignIndexEntry,
    byUpdatedDesc a b = true → byUpdatedDesc b c = true → byUpdatedDesc a c = true := by
  intro a b c hab hbc
  simp only [byUpdatedDesc, decide_eq_true_eq] at hab hbc ⊢
  omega

theorem byUpdatedDesc_total : ∀ a b : DesignIndexEntry,
    (byUpdatedDesc a b || byUpdatedDesc b a) = true := by
  intro a b
  simp only [byUpdatedDesc, Bool.or_eq_true, decide_eq_true_eq]
  omega

theorem mem_removeRecord (x : String × Design) (id : String)
    (recs : List (String × Design)) :
    x ∈ removeRecord id recs ↔ x ∈ recs ∧ x.1 ≠ id := by
  unfold removeRecord
  simp [List.mem_filter]

/-! ## Stroke and history lemmas -/

theorem getD_set_self (l : List Int) (i : Nat) (v : Int) (h : i < l.length) :
    (l.set i v).getD i 0 = v := by
  rw [List.getD_eq_getElem _ _ (by simp [h])]
  exact List.getElem_set_self _

theorem getD_set_ne (l : List Int) (i j : Nat) (v : Int) (h : i ≠ j) :
    (l.set i v).getD j 0 = l.getD j 0 := by
  by_cases hj : j < l.length
  · rw [List.getD_eq_getElem _ _ (by simp [hj]), List.getD_eq_getElem _ _ hj]
    exact List.getElem_set_ne h _
  · rw [List.getD_eq_default _ _ (by simp; omega), List.getD_eq_default _ _ (by omega)]

theorem eq_of_getD (l1 l2 : List Int) (hlen : l1.length = l2.length)
    (h : ∀ j, l1.getD j 0 = l2.getD j 0) : l1 = l2 := by
  refine List.ext_getElem hlen fun n h1 h2 => ?_
  have hn := h n
  rwa [List.getD_eq_getElem _ _ h1, List.getD_eq_getElem _ _ h2] at hn

/-- Invariant tying an in-progress stroke state back to the state `st0` the
gesture started from: history untouched, one patch per cell, each patch
recording the pre-stroke value as `prev` and the current value as `next`,
and cells outside the buffer unchanged. -/
structure StrokeInv (st0 st : EditorState) : Prop where
  len : st.cells.length = st0.cells.length
  draw : st.isDrawing = true
  past_eq : st.past = st0.past
  future_eq : st.future = st0.future
  buf : ∀ p ∈ st.strokeBuf,
    p.i < st0.cells.length ∧ st0.cells.getD p.i 0 = p.prev ∧
    st.cells.getD p.i 0 = p.next ∧ p.prev ≠ p.next
  nodup : (st.strokeBuf.map (fun p => p.i)).Nodup
  untouched : ∀ j, (∀ p ∈ st.strokeBuf, p.i ≠ j) →
    st.cells.getD j 0 = st0.cells.getD j 0

theorem startStroke_inv (st0 : EditorState) (i : Nat)
    (hi : i < st0.cells.length) : StrokeInv st0 (startStroke st0 i) := by
  unfold startStroke
  rw [if_neg (by omega)]
  dsimp only
  split
  case isTrue hne =>
    refine ⟨by simp, rfl, rfl, rfl, ?_, by simp, ?_⟩
    · intro p hp
      simp only [List.nil_append, List.mem_singleton] at hp
      subst hp
      exact ⟨hi, rfl, getD_set_self _ _ _ hi, hne⟩
    · intro j hj
      have hij := hj _ (List.mem_singleton_self _)
      simp only [List.nil_append, List.mem_singleton] at hij
      exact getD_set_ne _ _ _ _ hij
  case isFalse hne =>
    exact ⟨rfl, rfl, rfl, rfl, by simp, by simp, fun j _ => rfl⟩

theorem continueStroke_inv (st0 st : EditorState) (inv : StrokeInv st0 st)
    (ix : Nat) : StrokeInv st0 (continueStroke st ix) := by
  unfold continueStroke
  rw [if_neg (by simp [inv.draw])]
  split
  case isTrue => exact inv
  case isFalse hix =>
    dsimp only
    split
    case isTrue => exact inv
    case isFalse hhas =>
      have hfresh : ∀ p ∈ st.strokeBuf, p.i ≠ ix := by
        intro p hp heq
        exact hhas (by
          unfold strokeHas
          exact List.any_eq_true.mpr ⟨p, hp, by simp [heq]⟩)
      split
      case isTrue hne =>
        have hixlen : ix < st0.cells.length := by
          have := inv.len
          omega
        refine ⟨by simp [inv.len], inv.draw, inv.past_eq, inv.future_eq, ?_, ?_, ?_⟩
        · intro p hp
          rcases List.mem_append.mp hp with hold | hnew
          · obtain ⟨h1, h2, h3, h4⟩ := inv.buf p hold
            refine ⟨h1, h2, ?_, h4⟩
            rw [getD_set_ne _ _ _ _ (fun hc => hfresh p hold (by omega))]
            exact h3
          · simp only [List.mem_singleton] at hnew
            subst hnew
            refine ⟨hixlen, ?_, getD_set_self _ _ _ (by omega), hne⟩
            exact (inv.untouched ix hfresh).symm
        · simp only [List.map_append, List.map_cons, List.map_nil]
          rw [List.nodup_append]
          refine ⟨inv.nodup, List.nodup_singleton _, ?_⟩
          intro a ha hb
          simp only [List.mem_singleton] at hb
          obtain ⟨p, hp, hpa⟩ := List.mem_map.mp ha
          exact hfresh p hp (by rw [hpa, hb])
        · intro j hj
          have hjx : ix ≠ j :=
            hj ⟨ix, st.cells.getD ix 0, strokeTarget st⟩ (by simp)
          rw [getD_set_ne _ _ _ _ hjx]
          exact inv.untouched j (fun p hp => hj p (by simp [hp]))
      case isFalse => exact inv

theorem runStroke_inv (st0 : EditorState) (i : Nat)
    (hi : i < st0.cells.length) (is_ : List Nat) :
    StrokeInv st0 (runStroke st0 i is_) := by
  unfold runStroke
  have hgen : ∀ (L : List Nat) (st : EditorState), StrokeInv st0 st →
      StrokeInv st0 (L.foldl continueStroke st) := by
    intro L
    induction L with
    | nil => intro st hst; exact hst
    | cons x L ih =>
        intro st hst
        rw [List.foldl_cons]
        exact ih _ (continueStroke_inv st0 st hst x)
  exact hgen is_ _ (startStroke_inv st0 i hi)

theorem continueStroke_notDrawing (st : EditorState)
    (h : st.isDrawing = false) (ix : Nat) : continueStroke st ix = st := by
  unfold continueStroke
  rw [if_pos (by simp [h])]

theorem startStroke_oob (st : EditorState) (i : Nat)
    (h : ¬ i < st.cells.length) : startStroke st i = st := by
  unfold startStroke
  rw [if_pos (by omega)]

theorem endStroke_notDrawing (st : EditorState)
    (h : st.isDrawing = false) : endStroke st = st := by
  unfold endStroke
  rw [if_pos (by simp [h])]

theorem endStroke_cells (st : EditorState) :
    (endStroke st).cells = st.cells := by
  unfold endStroke pushActionToHistory
  split
  · rfl
  · dsimp only
    split
    · rfl
    · rfl

theorem runStroke_notDrawing (st : EditorState) (i : Nat) (is_ : List Nat)
    (hdraw : st.isDrawing = false) (hoob : ¬ i < st.cells.length) :
    runStroke st i is_ = st := by
  unfold runStroke
  rw [startStroke_oob st i hoob]
  induction is_ with
  | nil => rfl
  | cons x L ih =>
      rw [List.foldl_cons, continueStroke_notDrawing st hdraw x]
      exact ih

/-- When the gesture is a real stroke (all values as recorded by the
invariant) with a nonempty buffer, `endStroke` pushes exactly one stroke
action and resets the gesture state. -/
theorem endStroke_push (st0 st : EditorState) (inv : StrokeInv st0 st)
    (hne : st.strokeBuf ≠ []) :
    endStroke st =
      { st with
        isDrawing := false, strokeBuf := [],
        past := st0.past ++ [⟨ActionType.stroke, st.strokeBuf⟩], future := [] } := by
  unfold endStroke pushActionToHistory
  rw [if_neg (by simp [inv.draw])]
  dsimp only
  rw [if_pos (by simp [List.length_pos, hne])]
  simp [inv.past_eq]

/-- If the stroke buffer stayed empty, the grid never changed. -/
theorem empty_buf_cells (st0 st : EditorState) (inv : StrokeInv st0 st)
    (hb : st.strokeBuf = []) : st.cells = st0.cells := by
  refine eq_of_getD _ _ inv.len fun j => ?_
  exact inv.untouched j (by simp [hb])

theorem applyPatchesTo_backward (cells : List Int) (B : List CellPatch) :
    applyPatchesTo cells B false =
      B.foldl (fun cs p => cs.set p.i p.prev) cells := by
  unfold applyPatchesTo
  simp

theorem applyPatchesTo_forward (cells : List Int) (B : List CellPatch) :
    applyPatchesTo cells B true =
      B.foldl (fun cs p => cs.set p.i p.next) cells := by
  unfold applyPatchesTo
  simp

/-- Replaying a patch list over any grid that agrees with the target grid
off the patched cells, where each patch records the target value of its
cell, reconstructs the target grid exactly. -/
theorem applyList_eq_target (f : CellPatch → Int) :
    ∀ (B : List CellPatch) (target cells : List Int),
      cells.length = target.length →
      (∀ q ∈ B, q.i < target.length ∧ target.getD q.i 0 = f q) →
      (∀ j, (∀ q ∈ B, q.i ≠ j) → cells.getD j 0 = target.getD j 0) →
      B.foldl (fun cs q => cs.set q.i (f q)) cells = target := by
  intro B
  induction B with
  | nil =>
      intro target cells hlen hq hun
      exact eq_of_getD cells target hlen fun j => hun j (by simp)
  | cons q B ih =>
      intro target cells hlen hq hun
      rw [List.foldl_cons]
      refine ih target _ (by rw [List.length_set]; exact hlen) ?_ ?_
      · intro r hr
        exact hq r (by simp [hr])
      · intro j hj
        by_cases hji : q.i = j
        · subst hji
          rw [getD_set_self cells q.i (f q) (by rw [hlen]; exact (hq q (by simp)).1)]
          exact ((hq q (by simp)).2).symm
        · rw [getD_set_ne cells q.i j (f q) hji]
          refine hun j fun r hr => ?_
          rcases List.mem_cons.mp hr with rfl | hr'
          · exact hji
          · exact hj r hr'

/-- Case analysis shared by the undo-exactness and branch-invalidation
claims: if a completed gesture changed the grid at all, the start index was
in bounds, the stroke invariant holds, the buffer is nonempty, and
`endStroke` produced exactly one pushed stroke action. -/
theorem endStroke_run_cases (st0 : EditorState) (i : Nat) (is_ : List Nat)
    (hdraw : st0.isDrawing = false)
    (hch : (endStroke (runStroke st0 i is_)).cells ≠ st0.cells) :
    i < st0.cells.length ∧
    StrokeInv st0 (runStroke st0 i is_) ∧
    (runStroke st0 i is_).strokeBuf ≠ [] ∧
    endStroke (runStroke st0 i is_) =
      { runStroke st0 i is_ with
        isDrawing := false, strokeBuf := [],
        past := st0.past ++ [⟨ActionType.stroke, (runStroke st0 i is_).strokeBuf⟩],
        future := [] } := by
  by_cases hi : i < st0.cells.length
  · have inv := runStroke_inv st0 i hi is_
    by_cases hb : (runStroke st0 i is_).strokeBuf = []
    · exfalso
      apply hch
      rw [endStroke_cells]
      exact empty_buf_cells st0 _ inv hb
    · exact ⟨hi, inv, hb, endStroke_push st0 _ inv hb⟩
  · exfalso
    apply hch
    rw [runStroke_notDrawing st0 i is_ hdraw hi,
      endStroke_notDrawing st0 hdraw]

/-! ## Cluster-map correctness: coordinates and adjacency -/

theorem nbrIdx_coords (w h : Nat) (x y : Int) (hv : coordsValid w h x y) :
    nbrIdx w x y % w = x.toNat ∧ nbrIdx w x y / w = y.toNat := by
  obtain ⟨hx0, hxw, hy0, hyh⟩ := hv
  have hw : 0 < w := by omega
  have hxw2 : x.toNat < w := by omega
  unfold nbrIdx
  have hcast : y * (w : Int) + x = ((y.toNat * w + x.toNat : Nat) : Int) := by
    push_cast
    rw [Int.toNat_of_nonneg hx0, Int.toNat_of_nonneg hy0]
  rw [hcast, Int.toNat_natCast]
  constructor
  · rw [Nat.mul_comm y.toNat w, Nat.mul_add_mod, Nat.mod_eq_of_lt hxw2]
  · rw [Nat.mul_comm y.toNat w, Nat.mul_add_div hw, Nat.div_eq_of_lt hxw2]
    omega

theorem self_coordsValid (w h i : Nat) (hi : i < w * h) :
    coordsValid w h ((i % w : Nat) : Int) ((i / w : Nat) : Int) := by
  have hw : 0 < w := by
    rcases Nat.eq_zero_or_pos w with rfl | hw
    · simp at hi
    · exact hw
  refine ⟨by positivity, ?_, by positivity, ?_⟩
  · exact_mod_cast Nat.mod_lt i hw
  · have hdiv : i / w < h := by
      rw [Nat.div_lt_iff_lt_mul hw, Nat.mul_comm h w]
      exact hi
    exact_mod_cast hdiv

theorem self_nbrIdx (w h i : Nat) (hi : i < w * h) :
    nbrIdx w ((i % w : Nat) : Int) ((i / w : Nat) : Int) = i := by
  unfold nbrIdx
  have hcast : ((i / w : Nat) : Int) * w + ((i % w : Nat) : Int) =
      ((w * (i / w) + i % w : Nat) : Int) := by
    push_cast
    ring
  rw [hcast, Int.toNat_natCast, Nat.div_add_mod]

theorem neg_mem_orthogonalDirs (d : Int × Int) (hd : d ∈ orthogonalDirs) :
    (-d.1, -d.2) ∈ orthogonalDirs := by
  simp only [orthogonalDirs, List.mem_cons, List.not_mem_nil, or_false] at hd ⊢
  rcases hd with rfl | rfl | rfl | rfl <;> norm_num

theorem orthAdj_lt (w h i j : Nat) (ha : orthAdj w h i j) : j < w * h := by
  obtain ⟨d, hd, hv, rfl⟩ := ha
  exact nbrIdx_lt w h _ _ hv

theorem diagAdj_lt (w h i j : Nat) (ha : diagAdj w h i j) : j < w * h := by
  obtain ⟨d, hd, hv, rfl⟩ := ha
  exact nbrIdx_lt w h _ _ hv

theorem orthAdj_symm (w h i j : Nat) (hi : i < w * h) (ha : orthAdj w h i j) :
    orthAdj w h j i := by
  obtain ⟨d, hd, hv, rfl⟩ := ha
  obtain ⟨hm, hdv⟩ := nbrIdx_coords w h (nbrCoords w i d).1 (nbrCoords w i d).2 hv
  obtain ⟨hx0, hxw, hy0, hyh⟩ := hv
  have hc1 : (nbrCoords w (nbrIdx w (nbrCoords w i d).1 (nbrCoords w i d).2)
      (-d.1, -d.2)).1 = ((i % w : Nat) : Int) := by
    show ((nbrIdx w (nbrCoords w i d).1 (nbrCoords w i d).2 % w : Nat) : Int) +
      (-d.1) = _
    rw [hm, Int.toNat_of_nonneg hx0]
    show (nbrCoords w i d).1 + -d.1 = _
    simp [nbrCoords]
  have hc2 : (nbrCoords w (nbrIdx w (nbrCoords w i d).1 (nbrCoords w i d).2)
      (-d.1, -d.2)).2 = ((i / w : Nat) : Int) := by
    show ((nbrIdx w (nbrCoords w i d).1 (nbrCoords w i d).2 / w : Nat) : Int) +
      (-d.2) = _
    rw [hdv, Int.toNat_of_nonneg hy0]
    show (nbrCoords w i d).2 + -d.2 = _
    simp [nbrCoords]
  refine ⟨(-d.1, -d.2), neg_mem_orthogonalDirs d hd, ?_, ?_⟩
  · rw [hc1, hc2]
    exact self_coordsValid w h i hi
  · rw [hc1, hc2]
    exact (self_nbrIdx w h i hi).symm

theorem beadAdj_symm (cells : List Int) (w h : Nat) :
    Symmetric (beadAdj cells w h) := by
  intro i j hij
  obtain ⟨hi, hj, hbi, hbj, hadj⟩ := hij
  exact ⟨hj, hi, hbj, hbi, orthAdj_symm w h i j hi hadj⟩

theorem sameCluster_symm (cells : List Int) (w h : Nat) {i j : Nat}
    (hc : sameCluster cells w h i j) : sameCluster cells w h j i :=
  Relation.ReflTransGen.symmetric (beadAdj_symm cells w h) hc

/-- `x` is an on-board orthogonal neighbour of `u` holding a bead (the
cells the neighbour scan of `u` can reach). -/
def nbrOf (cells : List Int) (w h u x : Nat) : Prop :=
  ∃ d ∈ orthogonalDirs,
    coordsValid w h (nbrCoords w u d).1 (nbrCoords w u d).2 ∧
    x = nbrIdx w (nbrCoords w u d).1 (nbrCoords w u d).2 ∧
    cells.getD x 0 ≠ 0

theorem bfsScan_step (cells : List Int) (w h cid u : Nat)
    (acc : (Nat → Nat) × List Nat) (d : Int × Int) :
    (bfsScan cells w h cid u acc d = acc ∧
      (coordsValid w h (nbrCoords w u d).1 (nbrCoords w u d).2 →
        cells.getD (nbrIdx w (nbrCoords w u d).1 (nbrCoords w u d).2) 0 ≠ 0 →
        acc.1 (nbrIdx w (nbrCoords w u d).1 (nbrCoords w u d).2) ≠ 0)) ∨
    (coordsValid w h (nbrCoords w u d).1 (nbrCoords w u d).2 ∧
      cells.getD (nbrIdx w (nbrCoords w u d).1 (nbrCoords w u d).2) 0 ≠ 0 ∧
      acc.1 (nbrIdx w (nbrCoords w u d).1 (nbrCoords w u d).2) = 0 ∧
      bfsScan cells w h cid u acc d =
        (fset acc.1 (nbrIdx w (nbrCoords w u d).1 (nbrCoords w u d).2) cid,
         acc.2 ++ [nbrIdx w (nbrCoords w u d).1 (nbrCoords w u d).2])) := by
  unfold bfsScan
  split
  case isTrue hv =>
    split
    case isTrue hc => exact Or.inr ⟨hv, hc.1, hc.2, rfl⟩
    case isFalse hc =>
      refine Or.inl ⟨rfl, fun _ hbead h0 => ?_⟩
      exact hc ⟨hbead, h0⟩
  case isFalse hv => exact Or.inl ⟨rfl, fun hv2 => absurd hv2 hv⟩

theorem bfsFold_mono (cells : List Int) (w h cid u : Nat) :
    ∀ (D : List (Int × Int)) (cm : Nat → Nat) (q : List Nat) (x : Nat),
      cm x ≠ 0 →
      (D.foldl (bfsScan cells w h cid u) (cm, q)).1 x = cm x := by
  intro D
  induction D with
  | nil => intro cm q x _; rfl
  | cons d D ih =>
      intro cm q x hx
      rw [List.foldl_cons]
      rcases bfsScan_step cells w h cid u (cm, q) d with ⟨heq, _⟩ | ⟨hv, hb, h0, heq⟩
      · rw [heq]
        exact ih cm q x hx
      · rw [heq]
        have hxn : x ≠ nbrIdx w (nbrCoords w u d).1 (nbrCoords w u d).2 := by
          intro hc
          exact hx (by rw [hc]; exact h0)
        have hfs : fset cm (nbrIdx w (nbrCoords w u d).1 (nbrCoords w u d).2) cid x
            = cm x := by
          simp [fset, hxn]
        have := ih (fset cm (nbrIdx w (nbrCoords w u d).1 (nbrCoords w u d).2) cid)
          (q ++ [nbrIdx w (nbrCoords w u d).1 (nbrCoords w u d).2]) x
          (by rw [hfs]; exact hx)
        rw [this, hfs]

theorem bfsFold_new (cells : List Int) (w h cid u : Nat) (hcid : 0 < cid) :
    ∀ (D : List (Int × Int)), (∀ d ∈ D, d ∈ orthogonalDirs) →
      ∀ (cm : Nat → Nat) (q : List Nat) (x : Nat),
      (D.foldl (bfsScan cells w h cid u) (cm, q)).1 x ≠ cm x →
      cm x = 0 ∧ (D.foldl (bfsScan cells w h cid u) (cm, q)).1 x = cid ∧
        nbrOf cells w h u x ∧ x ∈ (D.foldl (bfsScan cells w h cid u) (cm, q)).2 := by
  intro D
  induction D with
  | nil =>
      intro _ cm q x hx
      exact absurd rfl hx
  | cons d D ih =>
      intro hD cm q x hx
      rw [List.foldl_cons] at hx ⊢
      rcases bfsScan_step cells w h cid u (cm, q) d with ⟨heq, _⟩ | ⟨hv, hb, h0, heq⟩
      · rw [heq] at hx ⊢
        exact ih (fun e he => hD e (by simp [he])) cm q x hx
      · rw [heq] at hx ⊢
        set n := nbrIdx w (nbrCoords w u d).1 (nbrCoords w u d).2 with hn
        by_cases hxn : x = n
        · rw [hxn]
          have hfs : fset cm n cid n = cid := by simp [fset]
          have hmono := bfsFold_mono cells w h cid u D
            (fset cm n cid) (q ++ [n]) n (by rw [hfs]; omega)
          refine ⟨h0, by rw [hmono, hfs], ⟨d, hD d (by simp), hv, hn, hb⟩, ?_⟩
          obtain ⟨t, ht⟩ := bfsScan_fold_append cells w h cid u D (fset cm n cid, q ++ [n])
          rw [ht]
          simp
        · have hfs : fset cm n cid x = cm x := by simp [fset, hxn]
          have hx2 : (D.foldl (bfsScan cells w h cid u)
              (fset cm n cid, q ++ [n])).1 x ≠ fset cm n cid x := by
            rw [hfs]
            exact hx
          obtain ⟨h1, h2, h3, h4⟩ := ih (fun e he => hD e (by simp [he])) _ _ x hx2
          rw [hfs] at h1
          exact ⟨h1, h2, h3, h4⟩

theorem bfsFold_queue (cells : List Int) (w h cid u : Nat) (hcid : 0 < cid) :
    ∀ (D : List (Int × Int)), (∀ d ∈ D, d ∈ orthogonalDirs) →
      ∀ (cm : Nat → Nat) (q : List Nat) (x : Nat),
      x ∈ (D.foldl (bfsScan cells w h cid u) (cm, q)).2 →
      x ∈ q ∨ (cm x = 0 ∧ (D.foldl (bfsScan cells w h cid u) (cm, q)).1 x = cid ∧
        nbrOf cells w h u x) := by
  intro D
  induction D with
  | nil =>
      intro _ cm q x hx
      exact Or.inl hx
  | cons d D ih =>
      intro hD cm q x hx
      rw [List.foldl_cons] at hx ⊢
      rcases bfsScan_step cells w h cid u (cm, q) d with ⟨heq, _⟩ | ⟨hv, hb, h0, heq⟩
      · rw [heq] at hx ⊢
        exact ih (fun e he => hD e (by simp [he])) cm q x hx
      · rw [heq] at hx ⊢
        set n := nbrIdx w (nbrCoords w u d).1 (nbrCoords w u d).2 with hn
        rcases ih (fun e he => hD e (by simp [he])) _ _ x hx with hq2 | ⟨hz, hcid2, hnbr⟩
        · rcases List.mem_append.mp hq2 with hq3 | hx3
          · exact Or.inl hq3
          · simp only [List.mem_singleton] at hx3
            rw [hx3]
            have hfs : fset cm n cid n = cid := by simp [fset]
            have hmono := bfsFold_mono cells w h cid u D
              (fset cm n cid) (q ++ [n]) n (by rw [hfs]; omega)
            exact Or.inr ⟨h0, by rw [hmono, hfs],
              ⟨d, hD d (by simp), hv, hn, hb⟩⟩
        · have hxn : x ≠ n := by
            intro hc
            rw [hc] at hz
            simp [fset] at hz
            omega
          rw [show fset cm n cid x = cm x by simp [fset, hxn]] at hz
          exact Or.inr ⟨hz, hcid2, hnbr⟩

theorem bfsFold_covered (cells : List Int) (w h cid u : Nat) (hcid : 0 < cid) :
    ∀ (D : List (Int × Int)) (cm : Nat → Nat) (q : List Nat),
      ∀ d ∈ D,
      coordsValid w h (nbrCoords w u d).1 (nbrCoords w u d).2 →
      cells.getD (nbrIdx w (nbrCoords w u d).1 (nbrCoords w u d).2) 0 ≠ 0 →
      (D.foldl (bfsScan cells w h cid u) (cm, q)).1
        (nbrIdx w (nbrCoords w u d).1 (nbrCoords w u d).2) ≠ 0 := by
  intro D
  induction D with
  | nil =>
      intro cm q d hd
      exact absurd hd (List.not_mem_nil d)
  | cons e D ih =>
      intro cm q d hd hv hb
      rw [List.foldl_cons]
      rcases List.mem_cons.mp hd with rfl | hd2
      · rcases bfsScan_step cells w h cid u (cm, q) d with ⟨heq, hreason⟩ |
          ⟨hv2, hb2, h02, heq⟩
        · rw [heq]
          have hnz := hreason hv hb
          rw [bfsFold_mono cells w h cid u D cm q _ hnz]
          exact hnz
        · rw [heq]
          have hfs : fset cm (nbrIdx w (nbrCoords w u d).1 (nbrCoords w u d).2) cid
              (nbrIdx w (nbrCoords w u d).1 (nbrCoords w u d).2) = cid := by
            simp [fset]
          rw [bfsFold_mono cells w h cid u D _ _ _ (by rw [hfs]; omega), hfs]
          omega
      · rcases bfsScan_step cells w h cid u (cm, q) e with ⟨heq, _⟩ |
          ⟨hv2, hb2, h02, heq⟩
        · rw [heq]
          exact ih cm q d hd2 hv hb
        · rw [heq]
          exact ih _ _ d hd2 hv hb

/-- Postcondition of one whole BFS run (`bfsLoop`), relative to the cluster
map `cm0` as it was before the seed was marked: marks are never erased, the
new marks are exactly cells of the seed's component (each marked `cid`,
on-board, holding a bead, connected to the seed), and the set of
`cid`-marked cells is closed under bead adjacency. -/
theorem bfsLoop_post (cells : List Int) (w h cid : Nat) (hcid : 0 < cid)
    (seed : Nat) (cm0 : Nat → Nat)
    (hfresh : ∀ x, cm0 x ≠ cid) :
    ∀ (cm : Nat → Nat) (q : List Nat) (head : Nat),
      (∀ x, cm x = cm0 x ∨ (cm0 x = 0 ∧ cm x = cid ∧ x < w * h ∧
         cells.getD x 0 ≠ 0 ∧ sameCluster cells w h seed x)) →
      (∀ x ∈ q, cm x = cid) →
      (∀ x, cm x = cid → x ∈ q) →
      (∀ k, k < head → k < q.length → ∀ j,
         beadAdj cells w h (q.getD k 0) j → cm j ≠ 0) →
      (∀ x, cm x ≠ 0 → bfsLoop cells w h cid hcid cm q head x = cm x) ∧
      (∀ x, bfsLoop cells w h cid hcid cm q head x = cm0 x ∨
         (cm0 x = 0 ∧ bfsLoop cells w h cid hcid cm q head x = cid ∧ x < w * h ∧
          cells.getD x 0 ≠ 0 ∧ sameCluster cells w h seed x)) ∧
      (∀ x, bfsLoop cells w h cid hcid cm q head x = cid → ∀ j,
         beadAdj cells w h x j → bfsLoop cells w h cid hcid cm q head j ≠ 0) := by
  intro cm q head
  induction cm, q, head using bfsLoop.induct cells w h cid hcid with
  | case1 cm q head hq ih =>
      intro hbase hqm hmq hproc
      set u := q.getD head 0 with hu
      have hor : ∀ d ∈ orthogonalDirs, d ∈ orthogonalDirs := fun d hd => hd
      have humem : u ∈ q := by
        rw [hu, List.getD_eq_getElem _ _ hq]
        exact List.getElem_mem hq
      have hucid : cm u = cid := hqm u humem
      have huprops : u < w * h ∧ cells.getD u 0 ≠ 0 ∧ sameCluster cells w h seed u := by
        rcases hbase u with h1 | ⟨_, _, h3, h4, h5⟩
        · exact absurd (h1.symm.trans hucid) (hfresh u)
        · exact ⟨h3, h4, h5⟩
      obtain ⟨t, ht⟩ := bfsScan_fold_append cells w h cid u orthogonalDirs (cm, q)
      have hbaseA : ∀ x,
          (orthogonalDirs.foldl (bfsScan cells w h cid u) (cm, q)).1 x = cm0 x ∨
          (cm0 x = 0 ∧
            (orthogonalDirs.foldl (bfsScan cells w h cid u) (cm, q)).1 x = cid ∧
            x < w * h ∧ cells.getD x 0 ≠ 0 ∧ sameCluster cells w h seed x) := by
        intro x
        by_cases hch : (orthogonalDirs.foldl (bfsScan cells w h cid u) (cm, q)).1 x = cm x
        · rw [hch]
          exact hbase x
        · obtain ⟨h1, h2, h3, _⟩ :=
            bfsFold_new cells w h cid u hcid orthogonalDirs hor cm q x hch
          obtain ⟨d, hd, hv, hxeq, hxb⟩ := h3
          have hxlt : x < w * h := by
            rw [hxeq]
            exact nbrIdx_lt w h _ _ hv
          have hcm0 : cm0 x = 0 := by
            rcases hbase x with hb1 | ⟨_, hb2, _⟩
            · rw [← hb1]
              exact h1
            · rw [h1] at hb2
              omega
          refine Or.inr ⟨hcm0, h2, hxlt, hxb, ?_⟩
          exact Relation.ReflTransGen.tail huprops.2.2
            ⟨huprops.1, hxlt, huprops.2.1, hxb, ⟨d, hd, hv, hxeq⟩⟩
      have hqmA : ∀ x ∈ (orthogonalDirs.foldl (bfsScan cells w h cid u) (cm, q)).2,
          (orthogonalDirs.foldl (bfsScan cells w h cid u) (cm, q)).1 x = cid := by
        intro x hx
        rcases bfsFold_queue cells w h cid u hcid orthogonalDirs hor cm q x hx with
          hxq | ⟨_, h2, _⟩
        · have hcmx := hqm x hxq
          rw [bfsFold_mono cells w h cid u orthogonalDirs cm q x (by rw [hcmx]; omega)]
          exact hcmx
        · exact h2
      have hmqA : ∀ x, (orthogonalDirs.foldl (bfsScan cells w h cid u) (cm, q)).1 x = cid →
          x ∈ (orthogonalDirs.foldl (bfsScan cells w h cid u) (cm, q)).2 := by
        intro x hx
        by_cases hch : (orthogonalDirs.foldl (bfsScan cells w h cid u) (cm, q)).1 x = cm x
        · have hcmx : cm x = cid := by
            rw [← hch]
            exact hx
          rw [ht]
          exact List.mem_append.mpr (Or.inl (hmq x hcmx))
        · exact (bfsFold_new cells w h cid u hcid orthogonalDirs hor cm q x hch).2.2.2
      have hprocA : ∀ k, k < head + 1 →
          k < (orthogonalDirs.foldl (bfsScan cells w h cid u) (cm, q)).2.length → ∀ j,
          beadAdj cells w h
            ((orthogonalDirs.foldl (bfsScan cells w h cid u) (cm, q)).2.getD k 0) j →
          (orthogonalDirs.foldl (bfsScan cells w h cid u) (cm, q)).1 j ≠ 0 := by
        intro k hk hkl j hadj
        have hkq : k < q.length := by omega
        have hgd : (orthogonalDirs.foldl (bfsScan cells w h cid u) (cm, q)).2.getD k 0 =
            q.getD k 0 := by
          rw [ht]
          exact List.getD_append _ _ _ _ hkq
        rw [hgd] at hadj
        by_cases hkh : k < head
        · have hnz := hproc k hkh hkq j hadj
          rw [bfsFold_mono cells w h cid u orthogonalDirs cm q j hnz]
          exact hnz
        · have hkh2 : k = head := by omega
          rw [hkh2] at hadj
          obtain ⟨hult, hjlt, hub, hjb, ⟨d, hd, hv, hjeq⟩⟩ := hadj
          rw [hjeq]
          exact bfsFold_covered cells w h cid u hcid orthogonalDirs cm q d hd hv
            (by rw [← hjeq]; exact hjb)
      obtain ⟨ihm, ihb, ihc⟩ := ih hbaseA hqmA hmqA hprocA
      rw [bfsLoop]
      simp only [dif_pos hq]
      refine ⟨?_, ihb, ihc⟩
      intro x hx
      have hmono := bfsFold_mono cells w h cid u orthogonalDirs cm q x hx
      rw [ihm x (by rw [hmono]; exact hx), hmono]
  | case2 cm q head hq =>
      intro hbase hqm hmq hproc
      rw [bfsLoop]
      simp only [dif_neg hq]
      refine ⟨fun x _ => trivial, hbase, ?_⟩
      intro x hx j hadj
      obtain ⟨k, hk, hkx⟩ := List.mem_iff_getElem.mp (hmq x hx)
      have hgd : q.getD k 0 = x := by
        rw [List.getD_eq_getElem _ _ hk]
        exact hkx
      exact hproc k (by omega) hk j (by rw [hgd]; exact hadj)

/-- Invariant-passing specification of the outer clustering loop: on a
well-formed grid the final cluster map marks exactly the beads, assigns
equal ids only within one connected component, and is closed and consistent
along bead adjacency. -/
theorem clusterFrom_post (cells : List Int) (w h : Nat)
    (hlen : cells.length = w * h) :
    ∀ (i : Nat) (cm : Nat → Nat) (nid : Nat) (hid : 0 < nid),
      (∀ x, cm x ≠ 0 → x < w * h ∧ cells.getD x 0 ≠ 0) →
      (∀ x, cm x < nid) →
      (∀ x y, cm x ≠ 0 → cm x = cm y → sameCluster cells w h x y) →
      (∀ x y, cm x ≠ 0 → beadAdj cells w h x y → cm y ≠ 0) →
      (∀ x y, beadAdj cells w h x y → cm x ≠ 0 → cm y ≠ 0 → cm x = cm y) →
      (∀ x, x < i → cells.getD x 0 ≠ 0 → cm x ≠ 0) →
      (∀ x, clusterFrom cells w h i cm nid hid x ≠ 0 →
         x < w * h ∧ cells.getD x 0 ≠ 0) ∧
      (∀ x y, clusterFrom cells w h i cm nid hid x ≠ 0 →
         clusterFrom cells w h i cm nid hid x = clusterFrom cells w h i cm nid hid y →
         sameCluster cells w h x y) ∧
      (∀ x y, beadAdj cells w h x y → clusterFrom cells w h i cm nid hid x ≠ 0 →
         clusterFrom cells w h i cm nid hid y ≠ 0 →
         clusterFrom cells w h i cm nid hid x = clusterFrom cells w h i cm nid hid y) ∧
      (∀ x, x < cells.length → cells.getD x 0 ≠ 0 →
         clusterFrom cells w h i cm nid hid x ≠ 0) := by
  intro i cm nid hid
  induction i, cm, nid, hid using clusterFrom.induct cells w h with
  | case1 i cm nid hid hi hcond cm1 ih =>
      intro hdom hbnd hconn hclosed hconsist hpre
      rw [clusterFrom, if_pos hi, if_pos hcond]
      obtain ⟨hbead, hzero⟩ := hcond
      have hilt : i < w * h := by omega
      have hfresh : ∀ x, cm x ≠ nid := fun x => by
        have := hbnd x
        omega
      obtain ⟨pm, pb, pc⟩ := bfsLoop_post cells w h nid hid i cm hfresh
        (fset cm i nid) [i] 0
        (by
          intro x
          by_cases hxi : x = i
          · subst hxi
            exact Or.inr ⟨hzero, by simp [fset], hilt, hbead,
              Relation.ReflTransGen.refl⟩
          · exact Or.inl (by simp [fset, hxi]))
        (by
          intro x hx
          simp only [List.mem_singleton] at hx
          subst hx
          simp [fset])
        (by
          intro x hx
          by_cases hxi : x = i
          · simp [hxi]
          · exfalso
            simp only [fset, if_neg hxi] at hx
            exact hfresh x hx)
        (by
          intro k hk
          omega)
      have hseedmark : bfsLoop cells w h nid hid (fset cm i nid) [i] 0 i = nid := by
        rw [pm i (by simp [fset]; omega)]
        simp [fset]
      have hmono2 : ∀ x, cm x ≠ 0 →
          bfsLoop cells w h nid hid (fset cm i nid) [i] 0 x = cm x := by
        intro x hx
        have hxi : x ≠ i := fun hc => hx (by rw [hc]; exact hzero)
        rw [pm x (by simp [fset, hxi]; exact hx)]
        simp [fset, hxi]
      have hdom1 : ∀ x, bfsLoop cells w h nid hid (fset cm i nid) [i] 0 x ≠ 0 →
          x < w * h ∧ cells.getD x 0 ≠ 0 := by
        intro x hx
        rcases pb x with hb1 | ⟨_, _, h3, h4, _⟩
        · exact hdom x (by rw [← hb1]; exact hx)
        · exact ⟨h3, h4⟩
      have hbnd1 : ∀ x, bfsLoop cells w h nid hid (fset cm i nid) [i] 0 x < nid + 1 := by
        intro x
        rcases pb x with hb1 | ⟨_, hb2, _⟩
        · rw [hb1]
          have := hbnd x
          omega
        · rw [hb2]
          omega
      have hconn1 : ∀ x y, bfsLoop cells w h nid hid (fset cm i nid) [i] 0 x ≠ 0 →
          bfsLoop cells w h nid hid (fset cm i nid) [i] 0 x =
            bfsLoop cells w h nid hid (fset cm i nid) [i] 0 y →
          sameCluster cells w h x y := by
        intro x y hx hxy
        by_cases hxn : bfsLoop cells w h nid hid (fset cm i nid) [i] 0 x = nid
        · have hyn : bfsLoop cells w h nid hid (fset cm i nid) [i] 0 y = nid := by
            rw [← hxy]
            exact hxn
          have hsx : sameCluster cells w h i x := by
            rcases pb x with hb1 | ⟨_, _, _, _, h5⟩
            · exact absurd (hb1 ▸ hxn) (hfresh x)
            · exact h5
          have hsy : sameCluster cells w h i y := by
            rcases pb y with hb1 | ⟨_, _, _, _, h5⟩
            · exact absurd (hb1 ▸ hyn) (hfresh y)
            · exact h5
          exact Relation.ReflTransGen.trans (sameCluster_symm cells w h hsx) hsy
        · have hxold : bfsLoop cells w h nid hid (fset cm i nid) [i] 0 x = cm x := by
            rcases pb x with hb1 | ⟨_, hb2, _⟩
            · exact hb1
            · exact absurd hb2 hxn
          have hyold : bfsLoop cells w h nid hid (fset cm i nid) [i] 0 y = cm y := by
            rcases pb y with hb1 | ⟨_, hb2, _⟩
            · exact hb1
            · exact absurd (by rw [hxy] at hxn; exact hb2) (by rw [← hxy]; exact hxn)
          refine hconn x y ?_ ?_
          · rw [← hxold]
            exact hx
          · rw [← hxold, ← hyold]
            exact hxy
      have hclosed1 : ∀ x y, bfsLoop cells w h nid hid (fset cm i nid) [i] 0 x ≠ 0 →
          beadAdj cells w h x y →
          bfsLoop cells w h nid hid (fset cm i nid) [i] 0 y ≠ 0 := by
        intro x y hx hadj
        by_cases hxn : bfsLoop cells w h nid hid (fset cm i nid) [i] 0 x = nid
        · exact pc x hxn y hadj
        · have hxold : bfsLoop cells w h nid hid (fset cm i nid) [i] 0 x = cm x := by
            rcases pb x with hb1 | ⟨_, hb2, _⟩
            · exact hb1
            · exact absurd hb2 hxn
          have hcmy : cm y ≠ 0 := hclosed x y (by rw [← hxold]; exact hx) hadj
          rw [hmono2 y hcmy]
          exact hcmy
      have hconsist1 : ∀ x y, beadAdj cells w h x y →
          bfsLoop cells w h nid hid (fset cm i nid) [i] 0 x ≠ 0 →
          bfsLoop cells w h nid hid (fset cm i nid) [i] 0 y ≠ 0 →
          bfsLoop cells w h nid hid (fset cm i nid) [i] 0 x =
            bfsLoop cells w h nid hid (fset cm i nid) [i] 0 y := by
        intro x y hadj hx hy
        by_cases hxn : bfsLoop cells w h nid hid (fset cm i nid) [i] 0 x = nid
        · by_cases hyn : bfsLoop cells w h nid hid (fset cm i nid) [i] 0 y = nid
          · rw [hxn, hyn]
          · have hyold : bfsLoop cells w h nid hid (fset cm i nid) [i] 0 y = cm y := by
              rcases pb y with hb1 | ⟨_, hb2, _⟩
              · exact hb1
              · exact absurd hb2 hyn
            have hx0 : cm x = 0 := by
              rcases pb x with hb1 | ⟨hb0, _⟩
              · exact absurd (hb1 ▸ hxn) (hfresh x)
              · exact hb0
            exfalso
            have := hclosed y x (by rw [← hyold]; exact hy) (beadAdj_symm cells w h hadj)
            exact this hx0
        · by_cases hyn : bfsLoop cells w h nid hid (fset cm i nid) [i] 0 y = nid
          · have hxold : bfsLoop cells w h nid hid (fset cm i nid) [i] 0 x = cm x := by
              rcases pb x with hb1 | ⟨_, hb2, _⟩
              · exact hb1
              · exact absurd hb2 hxn
            have hy0 : cm y = 0 := by
              rcases pb y with hb1 | ⟨hb0, _⟩
              · exact absurd (hb1 ▸ hyn) (hfresh y)
              · exact hb0
            exfalso
            have := hclosed x y (by rw [← hxold]; exact hx) hadj
            exact this hy0
          · have hxold : bfsLoop cells w h nid hid (fset cm i nid) [i] 0 x = cm x := by
              rcases pb x with hb1 | ⟨_, hb2, _⟩
              · exact hb1
              · exact absurd hb2 hxn
            have hyold : bfsLoop cells w h nid hid (fset cm i nid) [i] 0 y = cm y := by
              rcases pb y with hb1 | ⟨_, hb2, _⟩
              · exact hb1
              · exact absurd hb2 hyn
            rw [hxold, hyold]
            exact hconsist x y hadj (by rw [← hxold]; exact hx) (by rw [← hyold]; exact hy)
      have hpre1 : ∀ x, x < i + 1 → cells.getD x 0 ≠ 0 →
          bfsLoop cells w h nid hid (fset cm i nid) [i] 0 x ≠ 0 := by
        intro x hx hbx
        rcases Nat.lt_or_ge x i with hxi | hxi
        · have := hpre x hxi hbx
          rw [hmono2 x this]
          exact this
        · have hxeq : x = i := by omega
          rw [hxeq, hseedmark]
          omega
      exact ih hdom1 hbnd1 hconn1 hclosed1 hconsist1 hpre1
  | case2 i cm nid hid hi hcond ih =>
      intro hdom hbnd hconn hclosed hconsist hpre
      rw [clusterFrom, if_pos hi, if_neg hcond]
      refine ih hdom hbnd hconn hclosed hconsist ?_
      intro x hx hbx
      rcases Nat.lt_or_ge x i with hxi | hxi
      · exact hpre x hxi hbx
      · have hxeq : x = i := by omega
        subst hxeq
        intro hc
        exact hcond ⟨hbx, hc⟩
  | case3 i cm nid hid hi =>
      intro hdom hbnd hconn hclosed hconsist hpre
      rw [clusterFrom, if_neg hi]
      exact ⟨hdom, hconn, fun x y hadj hx hy => hconsist x y hadj hx hy,
        fun x hx hbx => hpre x (by omega) hbx⟩

/-- The final cluster map: nonzero exactly on beads, and equal ids exactly
within one connected component. -/
theorem clusterPass_spec (cells : List Int) (w h : Nat)
    (hlen : cells.length = w * h) :
    (∀ x, clusterPass cells w h x ≠ 0 ↔ (x < w * h ∧ cells.getD x 0 ≠ 0)) ∧
    (∀ x y, x < w * h → y < w * h → cells.getD x 0 ≠ 0 → cells.getD y 0 ≠ 0 →
      (clusterPass cells w h x = clusterPass cells w h y ↔
        sameCluster cells w h x y)) := by
  obtain ⟨hdom, hconn, hconsist, htotal⟩ :=
    clusterFrom_post cells w h hlen 0 (fun _ => 0) 1 Nat.one_pos
      (fun x hx => absurd rfl hx)
      (fun x => Nat.one_pos)
      (fun x y hx _ => absurd rfl hx)
      (fun x y hx _ => absurd rfl hx)
      (fun x y _ hx _ => absurd rfl hx)
      (fun x hx => by omega)
  have heq_of_same : ∀ x y, sameCluster cells w h x y →
      clusterPass cells w h x = clusterPass cells w h y := by
    intro x y hsc
    unfold sameCluster at hsc
    induction hsc with
    | refl => rfl
    | tail hab hbc ih =>
        have hfacts := hbc
        obtain ⟨hblt, hclt, hbb, hcb, _⟩ := hfacts
        rw [ih]
        exact hconsist _ _ hbc (htotal _ (by omega) hbb) (htotal _ (by omega) hcb)
  constructor
  · intro x
    constructor
    · exact hdom x
    · intro hx
      exact htotal x (by omega) hx.2
  · intro x y hx hy hbx hby
    constructor
    · intro heq
      exact hconn x y (htotal x (by omega) hbx) heq
    · exact heq_of_same x y

theorem orthCount_zero_iff (cells : List Int) (w h i : Nat) :
    orthCount cells w h i = 0 ↔ ∀ j, orthAdj w h i j → cells.getD j 0 = 0 := by
  unfold orthCount
  rw [List.length_eq_zero, List.filter_eq_nil_iff]
  constructor
  · intro hall j hadj
    obtain ⟨d, hd, hv, rfl⟩ := hadj
    have hnd := hall d hd
    simp only [Bool.and_eq_true, decide_eq_true_eq, not_and] at hnd
    by_contra hb
    exact hnd hv hb
  · intro hall d hd
    simp only [Bool.and_eq_true, decide_eq_true_eq, not_and]
    intro hv hb
    exact hb (hall (nbrIdx w (nbrCoords w i d).1 (nbrCoords w i d).2) ⟨d, hd, hv, rfl⟩)

theorem hasWeakBridge_iff (cells : List Int) (w h : Nat) (cm : Nat → Nat) (i : Nat) :
    hasWeakBridge cells w h cm i = true ↔
      ∃ j, diagAdj w h i j ∧ cells.getD j 0 ≠ 0 ∧ cm j ≠ cm i := by
  unfold hasWeakBridge
  rw [List.any_eq_true]
  constructor
  · rintro ⟨d, hd, hcond⟩
    simp only [Bool.and_eq_true, decide_eq_true_eq] at hcond
    exact ⟨nbrIdx w (nbrCoords w i d).1 (nbrCoords w i d).2,
      ⟨d, hd, hcond.1, rfl⟩, hcond.2.1, hcond.2.2⟩
  · rintro ⟨j, ⟨d, hd, hv, rfl⟩, hb, hne⟩
    refine ⟨d, hd, ?_⟩
    simp only [Bool.and_eq_true, decide_eq_true_eq]
    exact ⟨hv, hb, hne⟩

theorem isUnstableCell_iff (cells : List Int) (w h : Nat) (cm : Nat → Nat) (i : Nat) :
    isUnstableCell cells w h cm i = true ↔
      cells.getD i 0 ≠ 0 ∧
        (orthCount cells w h i = 0 ∨ hasWeakBridge cells w h cm i = true) := by
  unfold isUnstableCell
  by_cases hc : orthCount cells w h i = 0
  · simp [hc]
  · simp [hc]

theorem mem_findUnstableBeads (cells : List Int) (w h i : Nat) :
    i ∈ findUnstableBeads cells w h ↔
      i < cells.length ∧
        isUnstableCell cells w h (clusterPass cells w h) i = true := by
  unfold findUnstableBeads
  rw [List.mem_filter, List.mem_range]

theorem fold_remove_spec (L : List DesignIndexEntry) :
    ∀ (recs : List (String × Design)) (x : String × Design),
      x ∈ L.foldl (fun r y => removeRecord y.id r) recs →
      x ∈ recs ∧ ∀ e ∈ L, x.1 ≠ e.id := by
  induction L with
  | nil =>
      intro recs x hx
      exact ⟨hx, by simp⟩
  | cons y L ih =>
      intro recs x hx
      rw [List.foldl_cons] at hx
      obtain ⟨hmem, hrest⟩ := ih (removeRecord y.id recs) x hx
      rw [mem_removeRecord] at hmem
      refine ⟨hmem.1, ?_⟩
      intro e he
      rcases List.mem_cons.mp he with rfl | he'
      · exact hmem.2
      · exact hrest e he'

/-! ## Undo/redo reduction lemmas -/

theorem undo_concat (st : EditorState) (act : HistoryAction)
    (p : List HistoryAction) (hp : st.past = p ++ [act]) :
    undo st =
      { st with
        cells := applyPatchesTo st.cells act.patches false,
        past := p,
        future := act :: st.future } := by
  unfold undo applyPatches
  rw [hp, List.getLast?_concat, List.dropLast_concat]

theorem redo_cons (st : EditorState) (act : HistoryAction)
    (f : List HistoryAction) (hf : st.future = act :: f) :
    redo st =
      { st with
        cells := applyPatchesTo st.cells act.patches true,
        past := st.past ++ [act],
        future := f } := by
  unfold redo applyPatches
  rw [hf]

/-! ## Claims -/

/-- C1: Undo exactness — starting from a quiescent editor state with grid G,
a completed stroke (`startStroke`, any sequence of `continueStroke`,
`endStroke`) that transforms the grid into a different grid G1 is reverted
exactly by `undo()` (every cell equals G again), and `redo()` then restores
every cell of G1. -/
theorem undo_redo_restore_exact (st0 : EditorState) (i : Nat) (is_ : List Nat)
    (hdraw : st0.isDrawing = false)
    (hch : (endStroke (runStroke st0 i is_)).cells ≠ st0.cells) :
    (undo (endStroke (runStroke st0 i is_))).cells = st0.cells ∧
    (redo (undo (endStroke (runStroke st0 i is_)))).cells =
      (endStroke (runStroke st0 i is_)).cells := by
  obtain ⟨hi, inv, hbne, hend⟩ := endStroke_run_cases st0 i is_ hdraw hch
  have hu := undo_concat (endStroke (runStroke st0 i is_))
    ⟨ActionType.stroke, (runStroke st0 i is_).strokeBuf⟩ st0.past (by rw [hend])
  have hcells1 : (undo (endStroke (runStroke st0 i is_))).cells = st0.cells := by
    rw [hu]
    show applyPatchesTo (endStroke (runStroke st0 i is_)).cells
      (runStroke st0 i is_).strokeBuf false = st0.cells
    rw [endStroke_cells, applyPatchesTo_backward]
    refine applyList_eq_target (fun q => q.prev) (runStroke st0 i is_).strokeBuf
      st0.cells (runStroke st0 i is_).cells inv.len ?_ inv.untouched
    intro q hq
    obtain ⟨h1, h2, _, _⟩ := inv.buf q hq
    exact ⟨h1, h2⟩
  refine ⟨hcells1, ?_⟩
  have hfu : (undo (endStroke (runStroke st0 i is_))).future =
      ⟨ActionType.stroke, (runStroke st0 i is_).strokeBuf⟩ ::
        (endStroke (runStroke st0 i is_)).future := by
    rw [hu]
  have hfu2 : (undo (endStroke (runStroke st0 i is_))).future =
      [⟨ActionType.stroke, (runStroke st0 i is_).strokeBuf⟩] := by
    rw [hfu, hend]
  have hr := redo_cons (undo (endStroke (runStroke st0 i is_)))
    ⟨ActionType.stroke, (runStroke st0 i is_).strokeBuf⟩ [] hfu2
  rw [hr]
  show applyPatchesTo (undo (endStroke (runStroke st0 i is_))).cells
    (runStroke st0 i is_).strokeBuf true = (endStroke (runStroke st0 i is_)).cells
  rw [hcells1, endStroke_cells, applyPatchesTo_forward]
  refine applyList_eq_target (fun q => q.next) (runStroke st0 i is_).strokeBuf
    (runStroke st0 i is_).cells st0.cells inv.len.symm ?_ ?_
  · intro q hq
    obtain ⟨h1, _, h3, _⟩ := inv.buf q hq
    refine ⟨?_, h3⟩
    rw [inv.len]
    exact h1
  · intro j hj
    exact (inv.untouched j hj).symm

/-- C1 witness: a concrete stroke on a blank 2-by-2 board. -/
theorem undo_redo_restore_exact_witness :
    (undo (endStroke (runStroke (blankState 2 2) 0 [1]))).cells =
      (blankState 2 2).cells ∧
    (redo (undo (endStroke (runStroke (blankState 2 2) 0 [1])))).cells =
      (endStroke (runStroke (blankState 2 2) 0 [1])).cells :=
  undo_redo_restore_exact (blankState 2 2) 0 [1] rfl (by decide)

/-- C7: Stroke coalescing — within one stroke the buffered patch list (which
is exactly what `endStroke` pushes when nonempty) holds at most one patch
per cell index; each patch's `prev` is the cell's value before the stroke
first touched it and its `next` is the cell's value in the grid at
`endStroke` (the net change), and no-op touches record nothing. -/
theorem stroke_coalescing_net_patch (st0 : EditorState) (i : Nat)
    (is_ : List Nat) (hi : i < st0.cells.length) :
    ((runStroke st0 i is_).strokeBuf.map (fun p => p.i)).Nodup ∧
    (∀ p ∈ (runStroke st0 i is_).strokeBuf,
      p.prev = st0.cells.getD p.i 0 ∧
      p.next = (endStroke (runStroke st0 i is_)).cells.getD p.i 0 ∧
      p.prev ≠ p.next) ∧
    ((endStroke (runStroke st0 i is_)).past =
      if (runStroke st0 i is_).strokeBuf = [] then st0.past
      else st0.past ++ [⟨ActionType.stroke, (runStroke st0 i is_).strokeBuf⟩]) := by
  have inv := runStroke_inv st0 i hi is_
  refine ⟨inv.nodup, ?_, ?_⟩
  · intro p hp
    obtain ⟨_, h2, h3, h4⟩ := inv.buf p hp
    rw [endStroke_cells]
    exact ⟨h2.symm, h3.symm, h4⟩
  · by_cases hb : (runStroke st0 i is_).strokeBuf = []
    · rw [if_pos hb]
      unfold endStroke pushActionToHistory
      rw [if_neg (by simp [inv.draw])]
      dsimp only
      rw [if_neg (by simp [hb])]
      exact inv.past_eq
    · rw [if_neg hb, endStroke_push st0 _ inv hb]

/-- C7 witness: a concrete stroke that touches cell 0 twice. -/
theorem stroke_coalescing_net_patch_witness :
    ((runStroke (blankState 2 2) 0 [0, 1]).strokeBuf.map (fun p => p.i)).Nodup :=
  (stroke_coalescing_net_patch (blankState 2 2) 0 [0, 1] (by decide)).1

/-- C8: History branch invalidation — pushing any new action always empties
the `future` stack; in particular, whatever the history was before (after
any N strokes and M undos), one new grid-changing stroke leaves `future`
empty, so `redo()` is a no-op. -/
theorem push_clears_future_no_redo :
    (∀ (st : EditorState) (a : HistoryAction),
      (pushActionToHistory st a).future = []) ∧
    (∀ (st0 : EditorState) (i : Nat) (is_ : List Nat),
      st0.isDrawing = false →
      (endStroke (runStroke st0 i is_)).cells ≠ st0.cells →
      (endStroke (runStroke st0 i is_)).future = [] ∧
      redo (endStroke (runStroke st0 i is_)) = endStroke (runStroke st0 i is_)) := by
  constructor
  · intro st a
    rfl
  · intro st0 i is_ hdraw hch
    obtain ⟨_, _, _, hend⟩ := endStroke_run_cases st0 i is_ hdraw hch
    constructor
    · rw [hend]
    · rw [hend]
      unfold redo
      rfl

/-- C8 witness: one concrete stroke after which redo is a no-op. -/
theorem push_clears_future_no_redo_witness :
    (endStroke (runStroke (blankState 2 2) 0 [])).future = [] ∧
    redo (endStroke (runStroke (blankState 2 2) 0 [])) =
      endStroke (runStroke (blankState 2 2) 0 []) :=
  push_clears_future_no_redo.2 (blankState 2 2) 0 [] rfl (by decide)

/-- C2: Structural analyzer correctness — on a well-formed grid
(`cells.length = width*height`), `findUnstableBeads` contains exactly the
nonzero cells that are isolated (Rule A: no on-board 4-adjacent nonzero
neighbour) or sit on a weak bridge (Rule B: some on-board diagonal nonzero
neighbour in a different 4-adjacency connected component).  The
characterization mentions no traversal, so the result depends only on the
grid contents. -/
theorem findUnstableBeads_characterization (cells : List Int) (w h : Nat)
    (hlen : cells.length = w * h) (i : Nat) :
    i ∈ findUnstableBeads cells w h ↔
      i < w * h ∧ cells.getD i 0 ≠ 0 ∧
        ((∀ j, orthAdj w h i j → cells.getD j 0 = 0) ∨
         (∃ j, diagAdj w h i j ∧ cells.getD j 0 ≠ 0 ∧
           ¬ sameCluster cells w h i j)) := by
  obtain ⟨hdomiff, hiff⟩ := clusterPass_spec cells w h hlen
  rw [mem_findUnstableBeads, isUnstableCell_iff, hlen]
  constructor
  · rintro ⟨hilt, hbead, hAB⟩
    refine ⟨hilt, hbead, ?_⟩
    rcases hAB with hA | hB
    · exact Or.inl ((orthCount_zero_iff cells w h i).mp hA)
    · right
      obtain ⟨j, hdiag, hjb, hne⟩ :=
        (hasWeakBridge_iff cells w h (clusterPass cells w h) i).mp hB
      have hjlt := diagAdj_lt w h i j hdiag
      refine ⟨j, hdiag, hjb, fun hsc => hne ?_⟩
      exact ((hiff i j hilt hjlt hbead hjb).mpr hsc).symm
  · rintro ⟨hilt, hbead, hAB⟩
    refine ⟨hilt, hbead, ?_⟩
    rcases hAB with hA | hB
    · exact Or.inl ((orthCount_zero_iff cells w h i).mpr hA)
    · right
      obtain ⟨j, hdiag, hjb, hnsc⟩ := hB
      have hjlt := diagAdj_lt w h i j hdiag
      refine (hasWeakBridge_iff cells w h (clusterPass cells w h) i).mpr
        ⟨j, hdiag, hjb, fun heq => hnsc ?_⟩
      exact (hiff i j hilt hjlt hbead hjb).mp heq.symm

/-- C2 witness: on a 1-by-1 grid holding one bead, that bead is isolated and
therefore unstable. -/
theorem findUnstableBeads_characterization_witness :
    0 ∈ findUnstableBeads [(7 : Int)] 1 1 :=
  (findUnstableBeads_characterization [(7 : Int)] 1 1 rfl 0).mpr
    ⟨by decide, by decide, Or.inl (by
      intro j hadj
      obtain ⟨d, hd, hv, rfl⟩ := hadj
      simp only [orthogonalDirs, List.mem_cons, List.not_mem_nil, or_false] at hd
      rcases hd with rfl | rfl | rfl | rfl <;> (exfalso; revert hv; decide))⟩

/-- C3 counterexample: with the move tool active, `startStroke` on a nonzero
cell erases it (the tool resolves to target value 0, like erase), and the
completed gesture pushes a history action — the claim that move leaves
cells and history untouched is false for these functions. -/
theorem move_tool_modifies_grid :
    moveState.activeTool = Tool.move ∧
    (startStroke moveState 0).cells ≠ moveState.cells ∧
    (endStroke (startStroke moveState 0)).past ≠ moveState.past := by
  refine ⟨rfl, ?_, ?_⟩ <;> decide

/-- C3 amended: `startStroke`/`continueStroke` treat the move tool exactly
like the erase tool (`activeTool === 'paint' ? activeColorId : 0` maps any
non-paint tool to target value 0); the gesture is only kept off the cells by
the Pegboard caller, which never invokes these functions while the move tool
is active. -/
theorem move_tool_acts_as_erase (st : EditorState) (i : Nat)
    (h : st.activeTool = Tool.move) :
    startStroke st i = withTool (startStroke (withTool st Tool.erase) i) Tool.move ∧
    continueStroke st i =
      withTool (continueStroke (withTool st Tool.erase) i) Tool.move := by
  obtain ⟨bw, bh, cs, pa, fu, tool, color, dr, buf, cid, name, sv, dy⟩ := st
  have h2 : tool = Tool.move := h
  subst h2
  constructor
  · unfold startStroke withTool strokeTarget
    dsimp only
    simp only [if_neg (show ¬ (Tool.move = Tool.paint) from by decide),
      if_neg (show ¬ (Tool.erase = Tool.paint) from by decide)]
    split
    · rfl
    · split
      · rfl
      · rfl
  · unfold continueStroke withTool strokeTarget
    dsimp only
    simp only [if_neg (show ¬ (Tool.move = Tool.paint) from by decide),
      if_neg (show ¬ (Tool.erase = Tool.paint) from by decide)]
    split
    · rfl
    · split
      · rfl
      · split
        · rfl
        · split
          · rfl
          · rfl

/-- C3 amended witness: the concrete move-tool state. -/
theorem move_tool_acts_as_erase_witness :
    startStroke moveState 0 =
      withTool (startStroke (withTool moveState Tool.erase) 0) Tool.move :=
  (move_tool_acts_as_erase moveState 0 rfl).1

/-- C4 counterexample: a record declaring a 2-by-2 board whose grid decodes
to 3 cells is applied wholesale by `loadDesignToState` — the editor state
changes (cells become the 3 decoded values) and nothing is rejected. -/
theorem load_applies_corrupt_design :
    (decodeGrid corruptDesign.gridB64).length ≠
      corruptDesign.width * corruptDesign.height ∧
    (loadDesignToState corruptDesign (blankState 2 2) emptyStore).1.cells =
      [1, 2, 3] ∧
    (loadDesignToState corruptDesign (blankState 2 2) emptyStore).1 ≠
      blankState 2 2 := by
  refine ⟨?_, ?_, ?_⟩ <;> decide

/-- C4 amended: `loadDesignToState` performs no validation at all — even a
record whose decoded cell count differs from `width*height` is applied
unconditionally: the grid becomes the decoded list, history is reset, and
the record becomes the current design; no failure is reported (the only
load-time rejection, in `loadDesignById`, is a record missing from
storage). -/
theorem load_applies_without_validation (design : Design) (st : EditorState)
    (s : StoreState)
    (hbad : (decodeGrid design.gridB64).length ≠ design.width * design.height) :
    (loadDesignToState design st s).1.cells = decodeGrid design.gridB64 ∧
    (loadDesignToState design st s).1.past = [] ∧
    (loadDesignToState design st s).1.future = [] ∧
    (loadDesignToState design st s).1.currentDesignId = some design.id ∧
    (loadDesignToState design st s).1.isSaved = true := by
  unfold loadDesignToState
  exact ⟨rfl, rfl, rfl, rfl, rfl⟩

/-- C4 amended witness: the corrupt record applied to a blank editor. -/
theorem load_applies_without_validation_witness :
    (loadDesignToState corruptDesign (blankState 2 2) emptyStore).1.cells =
      decodeGrid corruptDesign.gridB64 :=
  (load_applies_without_validation corruptDesign (blankState 2 2) emptyStore
    (by decide)).1

/-- C5 counterexample: when the durable store rejects writes, the rethrown
`Error("Storage full or unavailable")` escapes `saveCurrentDesign` uncaught
(modelled as `SaveOutcome.threw`) — no failure result is returned to the
caller. -/
theorem save_throws_uncaught :
    failingStore.failing = true ∧
    (saveCurrentDesign dirtyState failingStore 5 "fresh" none).outcome =
      SaveOutcome.threw ("Storage full or unavailable") := by
  refine ⟨rfl, ?_⟩
  decide

/-- C5 amended: if the durable store rejects the write during save, the
exception propagates out of `saveCurrentDesign` (it is not converted to a
failure result), but the dirty-tracking state (`isSaved`, `isDirtyRef`) is
left unchanged — the clean-marking runs only after a successful
`storage.saveDesign` — and nothing was durably written, so the state is
still reported dirty afterwards. -/
theorem save_failure_preserves_dirty (st : EditorState) (s : StoreState)
    (now : Nat) (freshId : String) (nameOverride : Option String)
    (hfail : s.failing = true) :
    (∃ msg, (saveCurrentDesign st s now freshId nameOverride).outcome =
      SaveOutcome.threw msg) ∧
    (saveCurrentDesign st s now freshId nameOverride).editor.isSaved =
      st.isSaved ∧
    (saveCurrentDesign st s now freshId nameOverride).editor.isDirty =
      st.isDirty ∧
    (saveCurrentDesign st s now freshId nameOverride).store = s := by
  unfold saveCurrentDesign finishSave setCurrentDesignIdOp saveDesign
  cases st.currentDesignId with
  | none =>
      simp only [hfail, if_pos]
      cases nameOverride <;>
        exact ⟨⟨_, rfl⟩, by trivial, by trivial, by trivial⟩
  | some id =>
      simp only [hfail, if_pos]
      cases nameOverride <;> cases loadDesign id s <;>
        exact ⟨⟨_, rfl⟩, by trivial, by trivial, by trivial⟩

/-- C5 amended witness: the concrete dirty state over a failing store. -/
theorem save_failure_preserves_dirty_witness :
    (∃ msg, (saveCurrentDesign dirtyState failingStore 5 "fresh" none).outcome =
      SaveOutcome.threw msg) ∧
    (saveCurrentDesign dirtyState failingStore 5 "fresh" none).editor.isSaved =
      dirtyState.isSaved ∧
    (saveCurrentDesign dirtyState failingStore 5 "fresh" none).editor.isDirty =
      dirtyState.isDirty ∧
    (saveCurrentDesign dirtyState failingStore 5 "fresh" none).store =
      failingStore :=
  save_failure_preserves_dirty dirtyState failingStore 5 "fresh" none rfl

/-- C6: Encoding round-trip — for every cell sequence with values in
[0,255], of any length, `decodeGrid (encodeGrid cells)` equals `cells`
element by element. -/
theorem decode_encode_roundtrip (cells : List Int)
    (h : ∀ v ∈ cells, 0 ≤ v ∧ v ≤ 255) :
    decodeGrid (encodeGrid cells) = cells := by
  rw [decode_encode_emod]
  refine (List.map_congr_left ?_).trans (List.map_id cells)
  intro v hv
  obtain ⟨h1, h2⟩ := h v hv
  show v % 256 = v
  omega

/-- C6 witness: a concrete byte-valued grid. -/
theorem decode_encode_roundtrip_witness :
    decodeGrid (encodeGrid [0, 17, 255]) = [0, 17, 255] :=
  decode_encode_roundtrip [0, 17, 255] (by decide)

/-- C10: `Uint8Array` coercion — for arbitrary integer cell lists the
round-trip reduces each value modulo 256 (`encodeGrid` is total, it never
fails), and in particular it is not the identity on the out-of-range input
[300]. -/
theorem encode_truncates_mod256 :
    (∀ cells : List Int,
      decodeGrid (encodeGrid cells) = cells.map (fun v => v % 256)) ∧
    decodeGrid (encodeGrid [300]) = [44] ∧
    decodeGrid (encodeGrid [300]) ≠ [300] :=
  ⟨decode_encode_emod, by decide, by decide⟩

/-- C9: Gallery cap and eviction — every successful `saveDesign` leaves the
stored index sorted by `updatedAt` descending with length at most
`MAX_DESIGNS`; every entry beyond the cap (necessarily no newer than any
kept entry) is evicted: its index entry is dropped and its full record is
removed from storage. -/
theorem saveDesign_cap_and_eviction (d : Design) (s : StoreState)
    (hok : s.failing = false) :
    ∃ s1, saveDesign d s = Except.ok s1 ∧
      List.Sorted (fun a b : DesignIndexEntry => b.updatedAt ≤ a.updatedAt)
        s1.index ∧
      s1.index.length ≤ MAX_DESIGNS ∧
      (∀ e ∈ ((upsertEntry s.index
          ⟨d.id, d.width, d.height, d.updatedAt⟩).mergeSort byUpdatedDesc).drop
            MAX_DESIGNS,
        (∀ k ∈ s1.index, e.updatedAt ≤ k.updatedAt) ∧
        loadDesign e.id s1 = none) := by
  have hpair := List.sorted_mergeSort byUpdatedDesc_trans byUpdatedDesc_total
    (upsertEntry s.index ⟨d.id, d.width, d.height, d.updatedAt⟩)
  have hp2 : ((upsertEntry s.index
      ⟨d.id, d.width, d.height, d.updatedAt⟩).mergeSort byUpdatedDesc).Pairwise
      (fun a b : DesignIndexEntry => b.updatedAt ≤ a.updatedAt) := by
    refine hpair.imp ?_
    intro a b hab
    simpa [byUpdatedDesc] using hab
  unfold saveDesign
  rw [if_neg (by simp [hok])]
  refine ⟨_, rfl, ?_, ?_, ?_⟩
  · exact List.Pairwise.sublist (List.take_sublist _ _) hp2
  · show (List.take MAX_DESIGNS _).length ≤ MAX_DESIGNS
    rw [List.length_take]
    omega
  · intro e he
    constructor
    · intro k hk
      have hsplit := hp2
      rw [← List.take_append_drop MAX_DESIGNS ((upsertEntry s.index
        ⟨d.id, d.width, d.height, d.updatedAt⟩).mergeSort byUpdatedDesc)] at hsplit
      exact (List.pairwise_append.mp hsplit).2.2 k hk e he
    · show (((((upsertEntry s.index
          ⟨d.id, d.width, d.height, d.updatedAt⟩).mergeSort byUpdatedDesc).drop
            MAX_DESIGNS).foldl (fun r e => removeRecord e.id r)
              (setRecord d.id d s.records)).find?
                (fun r => r.1 == e.id)).map (fun r => r.2) = none
      rw [List.find?_eq_none.mpr]
      · rfl
      · intro x hx
        obtain ⟨_, hids⟩ := fold_remove_spec _ _ x hx
        simpa using hids e he

/-- C9 witness: saving a sample design into an empty healthy store. -/
theorem saveDesign_cap_and_eviction_witness :
    ∃ s1, saveDesign sampleDesign emptyStore = Except.ok s1 ∧
      List.Sorted (fun a b : DesignIndexEntry => b.updatedAt ≤ a.updatedAt)
        s1.index ∧
      s1.index.length ≤ MAX_DESIGNS ∧
      (∀ e ∈ ((upsertEntry emptyStore.index
          ⟨sampleDesign.id, sampleDesign.width, sampleDesign.height,
           sampleDesign.updatedAt⟩).mergeSort byUpdatedDesc).drop MAX_DESIGNS,
        (∀ k ∈ s1.index, e.updatedAt ≤ k.updatedAt) ∧
        loadDesign e.id s1 = none) :=
  saveDesign_cap_and_eviction sampleDesign emptyStore rfl
